import Mathlib

/-!
# Verification of the Wrestling Bracket Generator grouping engine

Shallow embedding of `src/bracket_matcher.py` (class `BracketMatcherV3`) and
the relevant parts of `src/models.py` (`Wrestler`, `Bracket`,
`ConstraintRelaxation`, `Bracket.staggered_matchups`), together with proofs
of the specification's testable properties.

Modelling conventions:
* Python `float` is modelled by the exact fraction type `Q` below (the
  program only adds, subtracts, multiplies, compares, halves and averages
  roster weights, all exact on the inputs used).
* Python `int` is modelled by `ℤ` (grades, ids, ranks) or `ℕ` (sizes,
  counts, indices).
* Python lists are Lean `List`s; in-place mutation of a bracket inside the
  running bracket list is modelled by `List.set` at the bracket's position
  (bracket ids are pairwise distinct, so object identity and positional
  identity coincide).
* `while` loops are modelled with an explicit fuel argument that is chosen
  at each call site as (size of the shrinking pool) + 1; every iteration of
  the corresponding Python loop removes at least one wrestler from the
  pool, so the fuel never runs out before the loop's own exit condition.
-/

namespace Wrestling

open List

/-- Exact rational arithmetic used to model Python `float` weights and
scores.  A value is a fraction `num / den`; every fraction built by the
embedding has a positive denominator (input weights are written with
`den = 1` times a positive power of ten, and all operations preserve
positivity).  Comparisons are by cross-multiplication, so they agree
with the rational value; no claim depends on any further arithmetic law.
`Rat` itself is not used because its arithmetic is `@[irreducible]` and
would block kernel evaluation of concrete runs. -/
structure Q where
  num : ℤ
  den : ℤ
deriving DecidableEq, Repr

instance : OfNat Q n := ⟨⟨(n : ℤ), 1⟩⟩

def Q.ofInt (n : ℤ) : Q := ⟨n, 1⟩

def Q.ofNat (n : ℕ) : Q := ⟨(n : ℤ), 1⟩

instance : Add Q := ⟨fun a b => ⟨a.num * b.den + b.num * a.den, a.den * b.den⟩⟩

instance : Sub Q := ⟨fun a b => ⟨a.num * b.den - b.num * a.den, a.den * b.den⟩⟩

instance : Neg Q := ⟨fun a => ⟨-a.num, a.den⟩⟩

instance : Mul Q := ⟨fun a b => ⟨a.num * b.num, a.den * b.den⟩⟩

/-- `1 / a` with the sign moved to the numerator. -/
def Q.inv (a : Q) : Q := if a.num < 0 then ⟨-a.den, -a.num⟩ else ⟨a.den, a.num⟩

instance : Div Q := ⟨fun a b => a * Q.inv b⟩

/-- Absolute value (`abs(...)` in the source). -/
def Q.abs (a : Q) : Q := ⟨|a.num|, a.den⟩

/-- Value comparison by cross-multiplication (denominators positive). -/
def Q.lt (a b : Q) : Prop := a.num * b.den < b.num * a.den

def Q.le (a b : Q) : Prop := a.num * b.den ≤ b.num * a.den

instance : LT Q := ⟨Q.lt⟩

instance : LE Q := ⟨Q.le⟩

instance (a b : Q) : Decidable (a < b) := by
  show Decidable (Q.lt a b); unfold Q.lt; infer_instance

instance (a b : Q) : Decidable (a ≤ b) := by
  show Decidable (Q.le a b); unfold Q.le; infer_instance

/-- Python `max(a, b)`: the later argument only on a strict increase. -/
def Q.max (a b : Q) : Q := if a < b then b else a

def Q.min (a b : Q) : Q := if b < a then b else a

/-- Python `max(...)`/`min(...)` over a list, with a default for `[]`
(the source only applies them to non-empty lists). -/
def qListMax (d : Q) : List Q → Q
  | [] => d
  | x :: xs => xs.foldl Q.max x

def qListMin (d : Q) : List Q → Q
  | [] => d
  | x :: xs => xs.foldl Q.min x

/-- `models.ConstraintRelaxation` (enum). -/
inductive ConstraintRelaxation where
  | NONE
  | RANK
  | GRADE
  | WEIGHT
  | SCHOOL
deriving DecidableEq, Repr

/-- `models.Wrestler` (dataclass).  Python `@dataclass` equality is
field-by-field equality, which is definitional equality of this structure. -/
structure Wrestler where
  id : ℤ
  first_name : String
  last_name : String
  grade : ℤ
  weight : Q
  rank : ℤ
  school : String
deriving DecidableEq, Repr

/-- `models.Bracket` (dataclass); only the fields the engine uses. -/
structure Bracket where
  id : ℕ
  wrestlers : List Wrestler
  mat_number : Option ℕ := none
  relaxations : List ConstraintRelaxation := []
deriving DecidableEq, Repr

/-- Maximum of a list with a default for the empty list (Python `max(...)`
is only ever applied to non-empty lists in the source). -/
def listMax {α : Type} [LinearOrder α] (d : α) : List α → α
  | [] => d
  | x :: xs => xs.foldl max x

/-- Minimum of a list with a default for the empty list. -/
def listMin {α : Type} [LinearOrder α] (d : α) : List α → α
  | [] => d
  | x :: xs => xs.foldl min x

/-- First-occurrence deduplication, the key order of a Python
`collections.Counter` built from a list: each school is recorded the
first time it is seen. -/
def dedupFirst (l : List String) : List String :=
  l.foldl (fun acc s => if s ∈ acc then acc else acc ++ [s]) []

/-- Number of wrestlers of school `s` in `ws` (`Counter` value). -/
def countSchool (ws : List Wrestler) (s : String) : ℕ :=
  (ws.filter (fun w => w.school = s)).length

/-- `CompatibilityResult` (dataclass in `bracket_matcher.py`). -/
structure CompatibilityResult where
  wrestlers : List Wrestler
  weight_spread : Q
  grade_spread : ℤ
  max_same_school : ℕ
  school_count : ℕ
deriving Repr

/-- `CompatibilityResult.violations`:
WEIGHT iff `weight_spread > 10.0`, GRADE iff `grade_spread > 2`,
SCHOOL iff `max_same_school > 1`, appended in that order. -/
def CompatibilityResult.violations (r : CompatibilityResult) :
    List ConstraintRelaxation :=
  (if r.weight_spread > 10 then [ConstraintRelaxation.WEIGHT] else []) ++
  (if r.grade_spread > 2 then [ConstraintRelaxation.GRADE] else []) ++
  (if r.max_same_school > 1 then [ConstraintRelaxation.SCHOOL] else [])

/-- `BracketMatcherV3._analyze`. -/
def analyze (ws : List Wrestler) : CompatibilityResult :=
  let weights := ws.map (fun w => w.weight)
  let grades := ws.map (fun w => w.grade)
  let schools := dedupFirst (ws.map (fun w => w.school))
  { wrestlers := ws
    weight_spread := qListMax 0 weights - qListMin 0 weights
    grade_spread := listMax 0 grades - listMin 0 grades
    max_same_school := listMax 0 (schools.map (countSchool ws))
    school_count := schools.length }

/-- Ascending insertion used to model the sorting done by
`statistics.median` (only the sorted values matter there). -/
def insertAsc (x : Q) : List Q → List Q
  | [] => [x]
  | y :: ys => if x < y then x :: y :: ys else y :: insertAsc x ys

def sortAsc : List Q → List Q
  | [] => []
  | x :: xs => insertAsc x (sortAsc xs)

/-- `statistics.median`: middle element of the sorted values for odd
length, average of the two middle elements for even length.  (Python
raises on `[]`; the source only calls it on non-empty lists.) -/
def median (l : List Q) : Q :=
  let s := sortAsc l
  let n := s.length
  if n % 2 = 1 then s.getD (n / 2) 0
  else (s.getD (n / 2 - 1) 0 + s.getD (n / 2) 0) / 2

/-- Stable descending insertion: `x` is placed before the first element
whose key is strictly smaller, i.e. after all earlier elements with a key
`≥` its own — exactly the order of Python's stable
`sorted(key=..., reverse=True)`. -/
def insertDesc {α : Type} (key : α → Q) (x : α) : List α → List α
  | [] => [x]
  | y :: ys => if key x < key y then y :: insertDesc key x ys else x :: y :: ys

/-- Stable descending sort by a rational key,
Python `sorted(l, key=key, reverse=True)` / `l.sort(key=key, reverse=True)`. -/
def sortByDesc {α : Type} (key : α → Q) : List α → List α
  | [] => []
  | x :: xs => insertDesc key x (sortByDesc key xs)

/-- `BracketMatcherV3._calculate_isolation`. -/
def isolation (w : Wrestler) (pool : List Wrestler) (maxWeight : Q) : Q :=
  let gradeCompatible :=
    pool.filter (fun p => p.id ≠ w.id ∧ |p.grade - w.grade| ≤ 1)
  if gradeCompatible = [] then 1000
  else
    let weightCompatible :=
      gradeCompatible.filter (fun p => Q.abs (p.weight - w.weight) ≤ maxWeight)
    let sameGrade :=
      pool.filter (fun p => p.grade = w.grade ∧ p.id ≠ w.id)
    let weightDeviation :=
      if sameGrade = [] then 50
      else Q.abs (w.weight - median (sameGrade.map (fun p => p.weight)))
    -- compat_factor: `max(0, 10 - len) * 15` (ℕ subtraction is truncated)
    Q.ofNat ((10 - weightCompatible.length) * 15) + weightDeviation / 2

/-- First element of minimal score, replacing the running best only on a
strictly smaller score — the Python
`best = None; for c in ...: if score < best_score: best = c` pattern
(on ties the earlier element is kept). -/
def selectMinBy {α : Type} (score : α → Q) : List α → Option α
  | [] => none
  | x :: xs =>
    match selectMinBy score xs with
    | none => some x
    | some y => if score y < score x then some y else some x

/-- First `some` produced along a list (the Python pattern of returning
from inside a `for` loop at the first success). -/
def firstSome {α β : Type} (f : α → Option β) : List α → Option β
  | [] => none
  | x :: xs =>
    match f x with
    | some y => some y
    | none => firstSome f xs

/-- Admissible candidates for `_find_partners`' inner scan, in pool order,
paired with their composite score.  `used_schools` of the source is a
`Counter` whose keys are exactly the schools of the current group, so the
membership test `c.school in used_schools` is membership of `c.school`
among the group's schools. -/
def fpScore (group : List Wrestler) (c : Wrestler)
    (r : CompatibilityResult) : Q :=
  (if (group.map (fun g => g.school)).contains c.school then (1000 : Q)
   else -100) + Q.ofInt r.grade_spread * 100 + r.weight_spread * 1

def fpCandidates (group cands : List Wrestler) (maxW : Q) (maxG : ℤ)
    (maxS : ℕ) : List (Wrestler × Q) :=
  cands.filterMap (fun c =>
    let r := analyze (group ++ [c])
    if r.weight_spread > maxW then none
    else if r.grade_spread > maxG then none
    else if r.max_same_school > maxS then none
    else some (c, fpScore group c r))

/-- The `while len(group) < target_size and candidates:` loop of
`_find_partners`.  Fuel is the initial number of candidates: every
iteration that does not exit removes one candidate, so the fuel never
runs out before the Python loop's own exit. -/
def findPartnersLoop (t : ℕ) (maxW : Q) (maxG : ℤ) (maxS : ℕ) :
    ℕ → List Wrestler → List Wrestler → List Wrestler
  | 0, group, _ => group
  | fuel + 1, group, cands =>
    if group.length < t ∧ cands ≠ [] then
      match selectMinBy Prod.snd (fpCandidates group cands maxW maxG maxS) with
      | none => group
      | some (best, _) =>
        findPartnersLoop t maxW maxG maxS fuel (group ++ [best])
          (cands.erase best)
    else group

/-- `BracketMatcherV3._find_partners`. -/
def findPartners (seed : Wrestler) (pool : List Wrestler) (t : ℕ)
    (maxW : Q) (maxG : ℤ) (maxS : ℕ) : Option (List Wrestler) :=
  let cands := pool.filter (fun w => w.id ≠ seed.id)
  let group := findPartnersLoop t maxW maxG maxS cands.length [seed] cands
  if t ≤ group.length then some group else none

/-- `BracketMatcherV3._find_best_bracket_isolated`: most isolated seeds
first, return the first full-size success. -/
def findBestBracketIsolated (pool : List Wrestler) (t : ℕ) (maxW : Q)
    (maxG : ℤ) (maxS : ℕ) : Option (List Wrestler) :=
  let sorted := sortByDesc (fun w => isolation w pool maxW) pool
  firstSome (fun seed =>
    match findPartners seed pool t maxW maxG maxS with
    | some g => if g ≠ [] ∧ g.length = t then some g else none
    | none => none) sorted

/-- The mutable state of `match_all`: the remaining pool (`available`),
the bracket list built so far, and the next bracket id. -/
structure MState where
  available : List Wrestler
  brackets : List Bracket
  bid : ℕ
deriving DecidableEq, Repr

/-- `for w in group: available.remove(w)` — erase the first occurrence of
each group member in turn. -/
def removeAll (g : List Wrestler) (l : List Wrestler) : List Wrestler :=
  g.foldl (fun acc w => acc.erase w) l

/-- Append a finished bracket (id, members, violations of its analysis)
and remove its members from the pool — the commit step shared by
phases 0–6. -/
def commitGroup (g : List Wrestler) (st : MState) : MState :=
  { available := removeAll g st.available
    brackets := st.brackets ++
      [{ id := st.bid, wrestlers := g, mat_number := none,
         relaxations := (analyze g).violations }]
    bid := st.bid + 1 }

/-- Number of strict-range partners of `w` (grade within ±2, weight
within ±10, different id) — the Phase 0 outlier test. -/
def strictMatchCount (w : Wrestler) (avail : List Wrestler) : ℕ :=
  (avail.filter (fun p =>
    p.id ≠ w.id ∧ |p.grade - w.grade| ≤ 2 ∧ Q.abs (p.weight - w.weight) ≤ 10)).length

/-- Phase 0's progressive relaxation for one outlier seed: the
`for max_weight in [25.0, 44.0]: for max_grade in [2, 3]: ... break`
nest tries the tolerance pairs (25,2), (25,3), (44,2), (44,3) in order
and commits the first success. -/
def tryTolerances (seed : Wrestler) (avail : List Wrestler) (t : ℕ) :
    Option (List Wrestler) :=
  firstSome (fun p : Q × ℤ => findPartners seed avail t p.1 p.2 2)
    [(25, 2), (25, 3), (44, 2), (44, 3)]

/-- Phase 0: outliers (fewer than `target - 1` strict-range partners),
most isolated first, each placed by progressive relaxation while still
present in the pool. -/
def phase0 (t : ℕ) (st : MState) : MState :=
  let outliers :=
    st.available.filter (fun w => strictMatchCount w st.available < t - 1)
  let sorted := sortByDesc (fun w => isolation w st.available 44) outliers
  sorted.foldl (fun s seed =>
    if seed ∈ s.available ∧ t ≤ s.available.length then
      match tryTolerances seed s.available t with
      | some g => commitGroup g s
      | none => s
    else s) st

/-- One of the `while len(available) >= target:` phase loops of
phases 1–6 (school cap fixed at 2).  Fuel is `available.length + 1` at
the call site; every iteration commits a non-empty group of pool
members, strictly shrinking the pool, so the fuel never runs out before
the Python loop's own exit. -/
def phaseLoop (t : ℕ) (maxW : Q) (maxG : ℤ) : ℕ → MState → MState
  | 0, st => st
  | fuel + 1, st =>
    if t ≤ st.available.length then
      match findBestBracketIsolated st.available t maxW maxG 2 with
      | none => st
      | some g => phaseLoop t maxW maxG fuel (commitGroup g st)
    else st

/-- Phases 1–4: full target size at tolerances
(10, 2), (25, 2), (44, 2), then the emergency (44, 3). -/
def runPhases14 (t : ℕ) (st : MState) : MState :=
  let s1 := phaseLoop t 10 2 (st.available.length + 1) st
  let s2 := phaseLoop t 25 2 (s1.available.length + 1) s1
  let s3 := phaseLoop t 44 2 (s2.available.length + 1) s2
  phaseLoop t 44 3 (s3.available.length + 1) s3

/-- Phases 5–6 (only when `target > 3`): reduced size `small_target`
at weights 10, 25, 44 with grade 2, then 44 with emergency grade 3. -/
def runPhases56 (t smallT : ℕ) (st : MState) : MState :=
  if 3 < t then
    let s1 := phaseLoop smallT 10 2 (st.available.length + 1) st
    let s2 := phaseLoop smallT 25 2 (s1.available.length + 1) s1
    let s3 := phaseLoop smallT 44 2 (s2.available.length + 1) s2
    phaseLoop smallT 44 3 (s3.available.length + 1) s3
  else st

/-- `l.enum`-style indexing used to model Python's iteration over the
bracket list while remembering each bracket's position (object identity
in the source; positions, since the list itself is never reordered). -/
def withIdx {α : Type} : ℕ → List α → List (ℕ × α)
  | _, [] => []
  | i, x :: xs => (i, x) :: withIdx (i + 1) xs

/-- Phase 7's global scan: every remaining wrestler against every
non-full bracket, admissibility (grade ≤ 3, school ≤ 2, weight ≤ 44),
composite score; the first strict minimum is committed. -/
def scan7 (t : ℕ) (avail : List Wrestler) (bks : List Bracket) :
    Option (Wrestler × ℕ × Q) :=
  selectMinBy (fun x => x.2.2)
    (avail.flatMap (fun w =>
      (withIdx 0 bks).filterMap (fun ib =>
        if t ≤ ib.2.wrestlers.length then none
        else
          let r := analyze (ib.2.wrestlers ++ [w])
          if r.grade_spread > 3 then none
          else if r.max_same_school > 2 then none
          else if r.weight_spread > 44 then none
          else
            some (w, ib.1,
              (Q.ofNat r.max_same_school - 1) * 1000 +
                Q.ofInt r.grade_spread * 100 + r.weight_spread * 1 +
                Q.ofNat ib.2.wrestlers.length * 10))))

/-- Commit one Phase 7 absorption: append the wrestler to the bracket at
position `i`, recompute that bracket's violations, and remove the
wrestler from the pool. -/
def absorb (w : Wrestler) (i : ℕ) (st : MState) : MState :=
  match st.brackets.get? i with
  | none => st
  | some b =>
    let ws := b.wrestlers ++ [w]
    { st with
      brackets := st.brackets.set i
        { b with wrestlers := ws, relaxations := (analyze ws).violations }
      available := st.available.erase w }

/-- Phase 7 (`while available:` with a global best-fit absorption per
iteration).  Fuel is `available.length + 1` at the call site; every
iteration removes the absorbed wrestler from the pool. -/
def phase7 (t : ℕ) : ℕ → MState → MState
  | 0, st => st
  | fuel + 1, st =>
    match scan7 t st.available st.brackets with
    | none => st
    | some (w, i, _) => phase7 t fuel (absorb w i st)

/-- Phase 8 admissibility (grade ≤ emergency 3, school ≤ 2, weight ≤ 44),
shared by direct absorption, swap sources and swap destinations. -/
def admissible (r : CompatibilityResult) : Prop :=
  r.grade_spread ≤ 3 ∧ r.max_same_school ≤ 2 ∧ r.weight_spread ≤ 44

instance (r : CompatibilityResult) : Decidable (admissible r) := by
  unfold admissible; infer_instance

/-- Phase 8, first attempt: the first non-full bracket (in list order)
that admits the wrestler. -/
def findDirect (t : ℕ) (w : Wrestler) (bks : List Bracket) :
    Option (ℕ × Bracket) :=
  firstSome (fun ib : ℕ × Bracket =>
    if t ≤ ib.2.wrestlers.length then none
    else if admissible (analyze (ib.2.wrestlers ++ [w])) then some ib
    else none) (withIdx 0 bks)

/-- Phase 8 swap search: all triples (source bracket of size ≥ 4, pulled
member, destination bracket with room and a different id) such that
source−pulled+newcomer and destination+pulled are both admissible, with
the sum of the two resulting weight spreads as score, in the source's
iteration order. -/
def swapCandidates (t : ℕ) (w : Wrestler) (bks : List Bracket) :
    List (ℕ × Wrestler × ℕ × Q) :=
  (withIdx 0 bks).flatMap (fun bb =>
    if bb.2.wrestlers.length < 4 then []
    else
      bb.2.wrestlers.flatMap (fun pullW =>
        let remaining := bb.2.wrestlers.filter (fun x => x.id ≠ pullW.id)
        let r := analyze (remaining ++ [w])
        if ¬ admissible r then []
        else
          (withIdx 0 bks).filterMap (fun ob =>
            if ob.2.id = bb.2.id then none
            else if t ≤ ob.2.wrestlers.length then none
            else
              let oR := analyze (ob.2.wrestlers ++ [pullW])
              if admissible oR then
                some (bb.1, pullW, ob.1, r.weight_spread + oR.weight_spread)
              else none)))

/-- The best swap (first strict minimum of the score). -/
def findBestSwap (t : ℕ) (w : Wrestler) (bks : List Bracket) :
    Option (ℕ × Wrestler × ℕ × Q) :=
  selectMinBy (fun x => x.2.2.2) (swapCandidates t w bks)

/-- Execute a Phase 8 swap: the source bracket (position `si`) loses its
first occurrence of `pulled` and gains the unmatched `w`; the
destination bracket (position `di`, a different bracket since its id
differs) gains `pulled`; both violation lists are recomputed. -/
def doSwap (si : ℕ) (pulled w : Wrestler) (di : ℕ) (bks : List Bracket) :
    List Bracket :=
  match bks.get? si, bks.get? di with
  | some sb, some db =>
    let sws := sb.wrestlers.erase pulled ++ [w]
    let bks1 := bks.set si
      { sb with wrestlers := sws, relaxations := (analyze sws).violations }
    let dws := db.wrestlers ++ [pulled]
    bks1.set di
      { db with wrestlers := dws, relaxations := (analyze dws).violations }
  | _, _ => bks

/-- One Phase 8 step for a single still-unmatched wrestler: direct
absorption first, then the best swap, otherwise the wrestler joins
`still_unmatched`. -/
def phase8Step (t : ℕ) (acc : List Bracket × List Wrestler) (w : Wrestler) :
    List Bracket × List Wrestler :=
  match findDirect t w acc.1 with
  | some (i, b) =>
    let ws := b.wrestlers ++ [w]
    (acc.1.set i
      { b with wrestlers := ws, relaxations := (analyze ws).violations },
     acc.2)
  | none =>
    match findBestSwap t w acc.1 with
    | some (si, pulled, di, _) => (doSwap si pulled w di acc.1, acc.2)
    | none => (acc.1, acc.2 ++ [w])

/-- Phase 8 (`if available:` redistribution over a snapshot of the
remaining pool). -/
def phase8 (t : ℕ) (st : MState) : MState :=
  if st.available = [] then st
  else
    { st with
      brackets := (st.available.foldl (phase8Step t) (st.brackets, [])).1
      available := (st.available.foldl (phase8Step t) (st.brackets, [])).2 }

/-- First index of the minimum (`mat_counts.index(min(mat_counts))`). -/
def idxOfMin (l : List ℕ) : ℕ := l.indexOf (listMin 0 l)

/-- The `for bracket in brackets:` loop of `_assign_mats`, threading the
per-mat running counts. -/
def assignMatsLoop (counts : List ℕ) : List Bracket → List Bracket
  | [] => []
  | b :: bs =>
    let m := idxOfMin counts
    { b with mat_number := some (m + 1) } ::
      assignMatsLoop (counts.set m (counts.getD m 0 + 1)) bs

/-- `BracketMatcherV3._assign_mats` (mutation of each bracket's
`mat_number` is modelled by returning the updated bracket list). -/
def assignMats (bks : List Bracket) (numMats : ℕ) : List Bracket :=
  assignMatsLoop (List.replicate numMats 0) bks

/-- `BracketMatcherV3.match_all`: the full pipeline.  Returns
`(brackets, unmatched)` exactly as the source does (brackets carry their
mat numbers, members and violation flags). -/
def matchAll (wrestlers : List Wrestler) (bracketSize : ℕ) (numMats : ℕ) :
    List Bracket × List Wrestler :=
  let t := bracketSize
  let smallT := max 3 (t - 1)
  let st0 : MState := ⟨wrestlers, [], 0⟩
  let s0 := phase0 t st0
  let s4 := runPhases14 t s0
  let s6 := runPhases56 t smallT s4
  let s7 := phase7 t (s6.available.length + 1) s6
  let s8 := phase8 t s7
  (assignMats s8.brackets numMats, s8.available)

/-- The `BracketMatcherV3` object: constructor fields plus the result
fields `match_all` stores on `self`. -/
structure BracketMatcherV3 where
  wrestlers : List Wrestler
  bracket_size : ℕ
  brackets : List Bracket := []
  unmatched : List Wrestler := []
deriving DecidableEq, Repr

/-- `match_all` as a method: it reads `self.wrestlers` only through
`self.wrestlers.copy()` and writes only `self.brackets` and
`self.unmatched`. -/
def matchAllMethod (m : BracketMatcherV3) (numMats : ℕ) :
    BracketMatcherV3 × (List Bracket × List Wrestler) :=
  let out := matchAll m.wrestlers m.bracket_size numMats
  ({ m with brackets := out.1, unmatched := out.2 }, out)

/-- One round of `Bracket.staggered_matchups`: the fixed player against
`rotating[0]`, then `rotating[k]` against `rotating[-k]` for
`k in range(1, total // 2)`; pairs involving the bye (`None`) slot are
skipped.  Pairs are emitted as member positions. -/
def rrRound (fixed : Option ℕ) (rotating : List (Option ℕ)) (total : ℕ) :
    List (ℕ × ℕ) :=
  (match fixed, rotating.headD none with
   | some f, some o => [(f, o)]
   | _, _ => []) ++
  (List.range' 1 (total / 2 - 1)).filterMap (fun k =>
    match rotating.getD k none, rotating.getD (rotating.length - k) none with
    | some a, some b => some (a, b)
    | _, _ => none)

/-- The `for _ in range(total - 1):` loop; the rotation
`rotating = [rotating[-1]] + rotating[:-1]` is a right rotation by one,
i.e. `List.rotate` by `length - 1`. -/
def rrLoop (fixed : Option ℕ) (total : ℕ) :
    ℕ → List (Option ℕ) → List (ℕ × ℕ)
  | 0, _ => []
  | s + 1, rotating =>
    rrRound fixed rotating total ++
      rrLoop fixed total s (rotating.rotate (rotating.length - 1))

/-- `Bracket.staggered_matchups` at the level of member positions:
`players = list(range(n))` plus a bye slot when `n` is odd, `fixed` is
`players[0]`, and `total - 1` rounds are played. -/
def staggeredIdxPairs (n : ℕ) : List (ℕ × ℕ) :=
  if n < 2 then []
  else
    let players : List (Option ℕ) :=
      (List.range n).map some ++ (if n % 2 = 1 then [none] else [])
    rrLoop (players.headD none) players.length (players.length - 1)
      players.tail

/-- A throwaway wrestler for the (never reached) out-of-range lookup of
`List.getD`; the emitted positions are always in range. -/
def defaultWrestler : Wrestler :=
  { id := 0, first_name := "", last_name := "", grade := 0, weight := 0,
    rank := 0, school := "" }

/-- `Bracket.staggered_matchups`: each emitted position pair is looked up
in the member list (`self.wrestlers[fixed]`, `self.wrestlers[opp]`, ...). -/
def staggeredMatchups (ws : List Wrestler) : List (Wrestler × Wrestler) :=
  (staggeredIdxPairs ws.length).map (fun p =>
    (ws.getD p.1 defaultWrestler, ws.getD p.2 defaultWrestler))

/-! ## Proof-layer definitions -/

/-- All wrestlers currently placed in brackets. -/
def allMembers (bks : List Bracket) : List Wrestler :=
  bks.flatMap Bracket.wrestlers

/-- The running invariant of `match_all`, at target size `t`, relative to
the input `roster`:
* the pool plus the placed wrestlers is a permutation of the roster;
* bracket ids are pairwise distinct and below the next id;
* if `3 ≤ t`, every bracket holds between 3 and `t` wrestlers;
* every bracket's stored relaxations are the violations of re-analyzing
  its current member list. -/
structure GoodState (t : ℕ) (roster : List Wrestler) (st : MState) : Prop where
  perm : (st.available ++ allMembers st.brackets).Perm roster
  idsNodup : (st.brackets.map Bracket.id).Nodup
  idsLt : ∀ b ∈ st.brackets, b.id < st.bid
  sizes : 3 ≤ t → ∀ b ∈ st.brackets, 3 ≤ b.wrestlers.length ∧ b.wrestlers.length ≤ t
  relax : ∀ b ∈ st.brackets, b.relaxations = (analyze b.wrestlers).violations

/-- A group satisfies a tolerance tuple: weight spread, grade spread and
largest same-school count all within bounds. -/
def withinTol (g : List Wrestler) (maxW : Q) (maxG : ℤ) (maxS : ℕ) : Prop :=
  (analyze g).weight_spread ≤ maxW ∧ (analyze g).grade_spread ≤ maxG ∧
    (analyze g).max_same_school ≤ maxS

/-- A bracket after appending `w` to its member list and recomputing its
violations — the shape produced by Phase 7 absorption and by Phase 8
direct absorption and swap destinations. -/
def pushW (b : Bracket) (w : Wrestler) : Bracket :=
  { b with
    wrestlers := b.wrestlers ++ [w]
    relaxations := (analyze (b.wrestlers ++ [w])).violations }

/-- A bracket after pulling `pulled` and appending `w`, with recomputed
violations — the shape produced for a Phase 8 swap source. -/
def pullPush (b : Bracket) (pulled w : Wrestler) : Bracket :=
  { b with
    wrestlers := b.wrestlers.erase pulled ++ [w]
    relaxations := (analyze (b.wrestlers.erase pulled ++ [w])).violations }

/-- Number of brackets assigned to mat `m`. -/
def matCount (bks : List Bracket) (m : ℕ) : ℕ :=
  (bks.filter (fun b => b.mat_number = some m)).length

/-- Concrete wrestlers used in counterexamples and witnesses. -/
def wA : Wrestler :=
  { id := 1, first_name := "Ann", last_name := "Ames", grade := 1,
    weight := 100, rank := 1, school := "North" }

def wB : Wrestler :=
  { id := 2, first_name := "Bo", last_name := "Beck", grade := 3,
    weight := 100, rank := 2, school := "South" }

/-- Four mutually compatible wrestlers (same grade, four schools, close
weights) whose roster forms exactly one bracket. -/
def wC1 : Wrestler :=
  { id := 11, first_name := "Cal", last_name := "One", grade := 3,
    weight := 100, rank := 1, school := "Alpha" }

def wC2 : Wrestler :=
  { id := 12, first_name := "Deb", last_name := "Two", grade := 3,
    weight := 102, rank := 2, school := "Beta" }

def wC3 : Wrestler :=
  { id := 13, first_name := "Eli", last_name := "Three", grade := 3,
    weight := 105, rank := 3, school := "Gamma" }

def wC4 : Wrestler :=
  { id := 14, first_name := "Fay", last_name := "Four", grade := 3,
    weight := 108, rank := 4, school := "Delta" }

def wC5 : Wrestler :=
  { id := 15, first_name := "Gus", last_name := "Five", grade := 3,
    weight := 103, rank := 5, school := "Edge" }

def wr4 : List Wrestler := [wC1, wC2, wC3, wC4]

def wr5 : List Wrestler := [wC1, wC2, wC3, wC4, wC5]

/-- A matcher object over the five-wrestler roster. -/
def m5 : BracketMatcherV3 :=
  { wrestlers := wr5, bracket_size := 4 }

def wD1 : Wrestler :=
  { id := 21, first_name := "Hal", last_name := "One", grade := 2,
    weight := 100, rank := 1, school := "Unity" }

def wD2 : Wrestler :=
  { id := 22, first_name := "Ian", last_name := "Two", grade := 2,
    weight := 102, rank := 2, school := "Unity" }

def wD3 : Wrestler :=
  { id := 23, first_name := "Jo", last_name := "Three", grade := 2,
    weight := 104, rank := 3, school := "Unity" }

def wD4 : Wrestler :=
  { id := 24, first_name := "Kim", last_name := "Four", grade := 2,
    weight := 106, rank := 4, school := "Unity" }

/-- Four wrestlers of the same grade and the same school, weights within
every tolerance. -/
def wrSame : List Wrestler := [wD1, wD2, wD3, wD4]

/-- Total slot count of the round-robin polygon: `n`, plus one bye slot
when `n` is odd (so `tot n` is always even for `n ≥ 2`). -/
def tot (n : ℕ) : ℕ := if n % 2 = 1 then n + 1 else n

/-- The `players` list of `staggered_matchups`: member positions as
`some`, plus the bye slot `none` when `n` is odd. -/
def playersL (n : ℕ) : List (Option ℕ) :=
  (List.range n).map some ++ (if n % 2 = 1 then [none] else [])

/-- The entry of the initial rotating list at index `idx`: member
position `idx + 1`, or the bye when that position is out of range. -/
def slotV (n idx : ℕ) : Option ℕ :=
  if idx + 1 < n then some (idx + 1) else none

/-- The position pairs emitted in round `q` of the polygon algorithm
(the rotating list has been left-rotated `q` times by `tot n - 2`). -/
def roundList (n q : ℕ) : List (ℕ × ℕ) :=
  rrRound (some 0) (((playersL n).tail).rotate (q * (tot n - 2))) (tot n)

/-! ## Helper lemmas -/

theorem selectMinBy_mem {α : Type} (score : α → Q) {l : List α} {a : α}
    (h : selectMinBy score l = some a) : a ∈ l := by
  induction l with
  | nil => simp [selectMinBy] at h
  | cons x xs ih =>
    cases hx : selectMinBy score xs with
    | none =>
      simp only [selectMinBy, hx, Option.some.injEq] at h
      subst h
      exact List.mem_cons_self _ _
    | some y =>
      simp only [selectMinBy, hx] at h
      split at h
      · simp only [Option.some.injEq] at h
        subst h
        exact List.mem_cons_of_mem _ (ih hx)
      · simp only [Option.some.injEq] at h
        subst h
        exact List.mem_cons_self _ _

theorem firstSome_eq_some {α β : Type} (f : α → Option β) {l : List α} {b : β}
    (h : firstSome f l = some b) : ∃ a ∈ l, f a = some b := by
  induction l with
  | nil => simp [firstSome] at h
  | cons x xs ih =>
    cases hx : f x with
    | some y =>
      simp only [firstSome, hx] at h
      exact ⟨x, List.mem_cons_self _ _, hx.trans h⟩
    | none =>
      simp only [firstSome, hx] at h
      obtain ⟨a, ha, hfa⟩ := ih h
      exact ⟨a, List.mem_cons_of_mem x ha, hfa⟩

theorem insertDesc_perm {α : Type} (key : α → Q) (x : α) (l : List α) :
    (insertDesc key x l).Perm (x :: l) := by
  induction l with
  | nil => simp [insertDesc]
  | cons y ys ih =>
    simp only [insertDesc]
    by_cases hc : key x < key y
    · rw [if_pos hc]
      exact (List.Perm.cons y ih).trans (List.Perm.swap x y ys)
    · rw [if_neg hc]

theorem sortByDesc_perm {α : Type} (key : α → Q) (l : List α) :
    (sortByDesc key l).Perm l := by
  induction l with
  | nil => simp [sortByDesc]
  | cons x xs ih =>
    exact (insertDesc_perm key x (sortByDesc key xs)).trans (List.Perm.cons x ih)

theorem mem_sortByDesc {α : Type} (key : α → Q) {l : List α} {a : α}
    (h : a ∈ sortByDesc key l) : a ∈ l :=
  (sortByDesc_perm key l).mem_iff.mp h

theorem withIdx_get {α : Type} {k : ℕ} {l : List α} {i : ℕ} {a : α}
    (h : (i, a) ∈ withIdx k l) : k ≤ i ∧ l.get? (i - k) = some a := by
  induction l generalizing k with
  | nil => simp [withIdx] at h
  | cons x xs ih =>
    simp only [withIdx, List.mem_cons] at h
    rcases h with h | h
    · cases h; exact ⟨Nat.le_refl _, by simp⟩
    · obtain ⟨hk, hget⟩ := ih h
      refine ⟨Nat.le_of_succ_le hk, ?_⟩
      have : i - k = (i - (k + 1)) + 1 := by omega
      rw [this]
      simpa using hget

theorem withIdx_zero_get {α : Type} {l : List α} {i : ℕ} {a : α}
    (h : (i, a) ∈ withIdx 0 l) : l.get? i = some a := by
  have := (withIdx_get h).2
  simpa using this

/-- Both outer lists of a double append may be exchanged up to
permutation. -/
theorem perm_swap_ends {α : Type} (u v w : List α) :
    (u ++ v ++ w).Perm (w ++ v ++ u) := by
  calc u ++ v ++ w
      ~ w ++ (u ++ v) := List.perm_append_comm
    _ ~ w ++ (v ++ u) := List.Perm.append_left w List.perm_append_comm
    _ = w ++ v ++ u := (List.append_assoc w v u).symm

/-- Sequentially erasing a subpermutation of `l` leaves a permutation
complement: `removeAll g l ++ g ~ l`. -/
theorem removeAll_perm {g l : List Wrestler} (h : g.Subperm l) :
    (removeAll g l ++ g).Perm l := by
  induction g generalizing l with
  | nil => simp [removeAll]
  | cons a g' ih =>
    have ha : a ∈ l := h.subset (List.mem_cons_self a g')
    have hl : l.Perm (a :: l.erase a) := List.perm_cons_erase ha
    have h' : g'.Subperm (l.erase a) := by
      have := h.trans hl.subperm
      exact (List.subperm_cons a).mp this
    have ihh := ih h'
    have hre : removeAll (a :: g') l ++ (a :: g') =
        removeAll g' (l.erase a) ++ (a :: g') := rfl
    rw [hre]
    calc removeAll g' (l.erase a) ++ (a :: g')
        ~ a :: (removeAll g' (l.erase a) ++ g') := List.perm_middle
      _ ~ a :: l.erase a := List.Perm.cons a ihh
      _ ~ l := hl.symm

theorem allMembers_append (b1 b2 : List Bracket) :
    allMembers (b1 ++ b2) = allMembers b1 ++ allMembers b2 := by
  simp [allMembers]

/-- Replacing the bracket at position `i` changes `allMembers` by
swapping the old member list for the new one (multiset accounting in
additive form). -/
theorem allMembers_set_perm {l : List Bracket} {i : ℕ} {b b' : Bracket}
    (h : l.get? i = some b) :
    (allMembers (l.set i b') ++ b.wrestlers).Perm
      (allMembers l ++ b'.wrestlers) := by
  induction l generalizing i with
  | nil => simp at h
  | cons x xs ih =>
    cases i with
    | zero =>
      have hxb : x = b := by simpa using h
      subst hxb
      simp only [List.set_cons_zero, allMembers, List.flatMap_cons]
      exact perm_swap_ends b'.wrestlers (xs.flatMap Bracket.wrestlers)
        x.wrestlers
    | succ j =>
      have hj : xs.get? j = some b := by simpa using h
      have ihh := ih hj
      simp only [List.set_cons_succ, allMembers, List.flatMap_cons]
      calc x.wrestlers ++ (xs.set j b').flatMap Bracket.wrestlers ++ b.wrestlers
          = x.wrestlers ++ ((xs.set j b').flatMap Bracket.wrestlers ++ b.wrestlers) :=
            List.append_assoc _ _ _
        _ ~ x.wrestlers ++ (xs.flatMap Bracket.wrestlers ++ b'.wrestlers) :=
            List.Perm.append_left _ ihh
        _ = x.wrestlers ++ xs.flatMap Bracket.wrestlers ++ b'.wrestlers :=
            (List.append_assoc _ _ _).symm

theorem Q.not_lt_iff {a b : Q} : ¬ (a < b) ↔ b ≤ a := by
  show ¬ Q.lt a b ↔ Q.le b a
  unfold Q.lt Q.le
  exact Int.not_lt

theorem fpCandidates_mem {group cands : List Wrestler} {maxW : Q} {maxG : ℤ}
    {maxS : ℕ} {c : Wrestler} {s : Q}
    (h : (c, s) ∈ fpCandidates group cands maxW maxG maxS) :
    c ∈ cands ∧ withinTol (group ++ [c]) maxW maxG maxS := by
  simp only [fpCandidates, List.mem_filterMap] at h
  obtain ⟨a, ha, hfa⟩ := h
  split_ifs at hfa with h1 h2 h3
  simp only [Option.some.injEq, Prod.mk.injEq] at hfa
  obtain ⟨hac, -⟩ := hfa
  subst hac
  exact ⟨ha, Q.not_lt_iff.mp h1, Int.not_lt.mp h2, Nat.not_lt.mp h3⟩

theorem findPartnersLoop_spec (t : ℕ) (maxW : Q) (maxG : ℤ) (maxS : ℕ) :
    ∀ (fuel : ℕ) (group cands : List Wrestler), ∃ extra,
      findPartnersLoop t maxW maxG maxS fuel group cands = group ++ extra ∧
        extra.Subperm cands := by
  intro fuel
  induction fuel with
  | zero => intro group cands; exact ⟨[], by simp [findPartnersLoop]⟩
  | succ fuel ih =>
    intro group cands
    simp only [findPartnersLoop]
    split
    · cases hsel : selectMinBy Prod.snd (fpCandidates group cands maxW maxG maxS) with
      | none => exact ⟨[], by simp⟩
      | some p =>
        obtain ⟨best, s⟩ := p
        have hbest : best ∈ cands :=
          (fpCandidates_mem (selectMinBy_mem _ hsel)).1
        obtain ⟨extra, heq, hsub⟩ := ih (group ++ [best]) (cands.erase best)
        refine ⟨best :: extra, ?_, ?_⟩
        · show findPartnersLoop t maxW maxG maxS fuel (group ++ [best])
            (cands.erase best) = group ++ best :: extra
          rw [heq]; simp
        · have h1 : best :: extra <+~ best :: cands.erase best :=
            (List.subperm_cons best).mpr hsub
          exact h1.trans (List.perm_cons_erase hbest).symm.subperm
    · exact ⟨[], by simp⟩

theorem findPartnersLoop_length_le (t : ℕ) (maxW : Q) (maxG : ℤ) (maxS : ℕ) :
    ∀ (fuel : ℕ) (group cands : List Wrestler), group.length ≤ t →
      (findPartnersLoop t maxW maxG maxS fuel group cands).length ≤ t := by
  intro fuel
  induction fuel with
  | zero => intro group cands h; simpa [findPartnersLoop] using h
  | succ fuel ih =>
    intro group cands h
    simp only [findPartnersLoop]
    split
    · cases hsel : selectMinBy Prod.snd (fpCandidates group cands maxW maxG maxS) with
      | none => exact h
      | some p =>
        obtain ⟨best, s⟩ := p
        have hlt : group.length < t := by
          rename_i hcond
          exact hcond.1
        exact ih (group ++ [best]) (cands.erase best) (by simpa using hlt)
    · exact h

theorem findPartnersLoop_tol (t : ℕ) (maxW : Q) (maxG : ℤ) (maxS : ℕ) :
    ∀ (fuel : ℕ) (group cands : List Wrestler),
      findPartnersLoop t maxW maxG maxS fuel group cands = group ∨
        withinTol (findPartnersLoop t maxW maxG maxS fuel group cands)
          maxW maxG maxS := by
  intro fuel
  induction fuel with
  | zero => intro group cands; exact Or.inl rfl
  | succ fuel ih =>
    intro group cands
    simp only [findPartnersLoop]
    split
    · cases hsel : selectMinBy Prod.snd (fpCandidates group cands maxW maxG maxS) with
      | none => exact Or.inl rfl
      | some p =>
        obtain ⟨best, s⟩ := p
        have htol : withinTol (group ++ [best]) maxW maxG maxS :=
          (fpCandidates_mem (selectMinBy_mem _ hsel)).2
        rcases ih (group ++ [best]) (cands.erase best) with heq | hw
        · refine Or.inr ?_
          show withinTol (findPartnersLoop t maxW maxG maxS fuel
            (group ++ [best]) (cands.erase best)) maxW maxG maxS
          rw [heq]
          exact htol
        · exact Or.inr hw
    · exact Or.inl rfl

theorem findPartners_eq_some {seed : Wrestler} {pool : List Wrestler} {t : ℕ}
    {maxW : Q} {maxG : ℤ} {maxS : ℕ} {g : List Wrestler}
    (h : findPartners seed pool t maxW maxG maxS = some g) :
    t ≤ g.length ∧ ∃ extra, g = seed :: extra ∧
      extra.Subperm (pool.filter (fun w => w.id ≠ seed.id)) := by
  simp only [findPartners] at h
  split at h
  · rename_i hlen
    have hg : g = findPartnersLoop t maxW maxG maxS
        (pool.filter (fun w => w.id ≠ seed.id)).length [seed]
        (pool.filter (fun w => w.id ≠ seed.id)) :=
      (Option.some_injective _ h).symm
    obtain ⟨extra, heq, hsub⟩ :=
      findPartnersLoop_spec t maxW maxG maxS
        (pool.filter (fun w => w.id ≠ seed.id)).length [seed]
        (pool.filter (fun w => w.id ≠ seed.id))
    refine ⟨?_, extra, ?_, hsub⟩
    · rw [hg]; exact hlen
    · rw [hg, heq]; rfl
  · exact absurd h (by simp)

/-- (C4, counterexample)  A two-member group with grades 1 and 3 has
grade spread 2 — which exceeds the baseline 1 claimed by the spec — yet
the code computes no GRADE flag for it: `violations` only fires on a
grade spread exceeding 2. -/
theorem violations_grade_counterexample :
    (analyze [wA, wB]).grade_spread = 2 ∧ (1 : ℤ) < 2 ∧
      ConstraintRelaxation.GRADE ∉ (analyze [wA, wB]).violations := by
  decide

/-- (C4, amended)  For every non-empty group, the flags computed by
`violations` are: WEIGHT iff the weight spread exceeds 10, GRADE iff the
grade spread exceeds 2 (not 1 as the spec claims), SCHOOL iff the
largest same-school count exceeds 1 — independent of the tolerance used
to admit the group, since `violations` is a pure function of the group's
analysis. -/
theorem violations_flags_iff (ws : List Wrestler) (_h : ws ≠ []) :
    (ConstraintRelaxation.WEIGHT ∈ (analyze ws).violations ↔
      10 < (analyze ws).weight_spread) ∧
    (ConstraintRelaxation.GRADE ∈ (analyze ws).violations ↔
      2 < (analyze ws).grade_spread) ∧
    (ConstraintRelaxation.SCHOOL ∈ (analyze ws).violations ↔
      1 < (analyze ws).max_same_school) := by
  unfold CompatibilityResult.violations
  refine ⟨?_, ?_, ?_⟩ <;> · split_ifs <;> simp_all

/-- (C4, witness) -/
theorem violations_flags_iff_witness :
    (ConstraintRelaxation.WEIGHT ∈ (analyze [wA, wB]).violations ↔
      10 < (analyze [wA, wB]).weight_spread) ∧
    (ConstraintRelaxation.GRADE ∈ (analyze [wA, wB]).violations ↔
      2 < (analyze [wA, wB]).grade_spread) ∧
    (ConstraintRelaxation.SCHOOL ∈ (analyze [wA, wB]).violations ↔
      1 < (analyze [wA, wB]).max_same_school) :=
  violations_flags_iff [wA, wB] (by decide)

/-- (C7)  `match_all` is deterministic: equal ordered rosters and equal
configurations produce identical outputs — same brackets in the same
order with the same ids, member lists, relaxation flags and mat numbers,
and the same unmatched list.  The embedding is a pure function of the
roster and configuration: the source's iteration orders (list order,
insertion-ordered dicts, stable sorts) are all deterministic. -/
theorem matchAll_deterministic (r₁ r₂ : List Wrestler) (b₁ b₂ n₁ n₂ : ℕ)
    (hr : r₁ = r₂) (hb : b₁ = b₂) (hn : n₁ = n₂) :
    matchAll r₁ b₁ n₁ = matchAll r₂ b₂ n₂ := by
  rw [hr, hb, hn]

/-- (C7, witness) -/
theorem matchAll_deterministic_witness :
    matchAll [wA, wB] 4 3 = matchAll [wA, wB] 4 3 :=
  matchAll_deterministic [wA, wB] [wA, wB] 4 4 3 3 rfl rfl rfl

theorem findPartners_len_tol {seed : Wrestler} {pool : List Wrestler}
    {t : ℕ} {maxW : Q} {maxG : ℤ} {maxS : ℕ} {g : List Wrestler}
    (h : findPartners seed pool t maxW maxG maxS = some g) :
    (1 ≤ t → g.length = t) ∧ (2 ≤ t → withinTol g maxW maxG maxS) := by
  simp only [findPartners] at h
  split at h
  · rename_i hlen
    have hg : g = findPartnersLoop t maxW maxG maxS
        (pool.filter (fun w => w.id ≠ seed.id)).length [seed]
        (pool.filter (fun w => w.id ≠ seed.id)) :=
      (Option.some_injective _ h).symm
    rw [← hg] at hlen
    constructor
    · intro h1
      have hle := findPartnersLoop_length_le t maxW maxG maxS
        (pool.filter (fun w => w.id ≠ seed.id)).length [seed]
        (pool.filter (fun w => w.id ≠ seed.id)) (by simpa using h1)
      rw [← hg] at hle
      omega
    · intro h2
      rcases findPartnersLoop_tol t maxW maxG maxS
          (pool.filter (fun w => w.id ≠ seed.id)).length [seed]
          (pool.filter (fun w => w.id ≠ seed.id)) with heq | hw
      · exfalso
        rw [← hg] at heq
        rw [heq] at hlen
        simp at hlen
        omega
      · rw [hg]; exact hw
  · exact absurd h (by simp)

/-- (C8, counterexample)  The claim fails for degenerate target sizes: at
`target_size = 1` with school cap 0 the builder returns the bare seed
group `[seed]` without ever checking it against the tolerance tuple, and
that group has a same-school count of 1 > 0.  (At `target_size = 0` it
even returns a group of size 1 ≠ 0.)  The admission checks only run for
candidates joining the seed, so a group is checked exactly when
`target_size ≥ 2`. -/
theorem findPartners_tol_counterexample :
    findPartners wA [] 1 10 1 0 = some [wA] ∧
      ¬ (analyze [wA]).max_same_school ≤ 0 := by
  decide

/-- (C8, amended)  For `target_size ≥ 2`: `_find_partners` returns
either `None` or a group of exactly `target_size` wrestlers whose first
element is the seed and which satisfies the tolerance tuple; in
particular a group shorter than the target is never returned even when a
non-empty partial group was built. -/
theorem findPartners_size_or_none (seed : Wrestler) (pool : List Wrestler)
    (t : ℕ) (maxW : Q) (maxG : ℤ) (maxS : ℕ) (ht : 2 ≤ t) :
    findPartners seed pool t maxW maxG maxS = none ∨
      ∃ g, findPartners seed pool t maxW maxG maxS = some g ∧
        g.length = t ∧ g.head? = some seed ∧
        (analyze g).weight_spread ≤ maxW ∧
        (analyze g).grade_spread ≤ maxG ∧
        (analyze g).max_same_school ≤ maxS := by
  cases hfp : findPartners seed pool t maxW maxG maxS with
  | none => exact Or.inl rfl
  | some g =>
    refine Or.inr ⟨g, rfl, ?_⟩
    obtain ⟨-, extra, hg, -⟩ := findPartners_eq_some hfp
    obtain ⟨hlen, htol⟩ := findPartners_len_tol hfp
    obtain ⟨hw, hgr, hs⟩ := htol ht
    refine ⟨hlen (by omega), ?_, hw, hgr, hs⟩
    rw [hg]
    rfl

theorem foldl_min_mem (xs : List ℕ) (x : ℕ) : xs.foldl min x ∈ x :: xs := by
  induction xs generalizing x with
  | nil => simp
  | cons y ys ih =>
    rw [List.foldl_cons]
    have h := ih (min x y)
    rcases List.mem_cons.mp h with h1 | h1
    · rw [h1]
      have hxy : min x y = x ∨ min x y = y := by omega
      rcases hxy with he | he <;> rw [he] <;> simp
    · simp [h1]

theorem foldl_min_le (xs : List ℕ) (x : ℕ) :
    xs.foldl min x ≤ x ∧ ∀ y ∈ xs, xs.foldl min x ≤ y := by
  induction xs generalizing x with
  | nil => simp
  | cons y ys ih =>
    obtain ⟨h1, h2⟩ := ih (min x y)
    rw [List.foldl_cons]
    refine ⟨le_trans h1 (Nat.min_le_left x y), ?_⟩
    intro z hz
    rcases List.mem_cons.mp hz with h | h
    · rw [h]
      exact le_trans h1 (Nat.min_le_right x y)
    · exact h2 z h

theorem listMin_mem {l : List ℕ} (h : l ≠ []) : listMin 0 l ∈ l := by
  cases l with
  | nil => exact absurd rfl h
  | cons x xs => exact foldl_min_mem xs x

theorem listMin_le {l : List ℕ} : ∀ j < l.length, listMin 0 l ≤ l.getD j 0 := by
  intro j hj
  cases l with
  | nil => simp at hj
  | cons x xs =>
    obtain ⟨h1, h2⟩ := foldl_min_le xs x
    cases j with
    | zero => exact h1
    | succ i =>
      have hx : (x :: xs).getD (i + 1) 0 = xs.getD i 0 := rfl
      rw [hx]
      have hilt : i < xs.length := by simpa using hj
      have hmem : xs.getD i 0 ∈ xs := by
        rw [List.getD_eq_getElem _ _ hilt]
        exact List.getElem_mem hilt
      exact h2 _ hmem

theorem idxOfMin_lt {l : List ℕ} (h : l ≠ []) : idxOfMin l < l.length := by
  unfold idxOfMin
  exact List.indexOf_lt_length.mpr (listMin_mem h)

theorem getD_idxOfMin {l : List ℕ} (h : l ≠ []) :
    l.getD (idxOfMin l) 0 = listMin 0 l := by
  unfold idxOfMin
  have hlt := List.indexOf_lt_length.mpr (listMin_mem h)
  rw [List.getD_eq_getElem _ _ hlt]
  exact List.getElem_indexOf hlt

theorem getD_set_self {l : List ℕ} {i : ℕ} {v : ℕ} (h : i < l.length) :
    (l.set i v).getD i 0 = v := by
  induction l generalizing i with
  | nil => simp at h
  | cons x xs ih =>
    cases i with
    | zero => rfl
    | succ j => exact ih (by simpa using h)

theorem getD_set_ne {l : List ℕ} {i j : ℕ} {v : ℕ} (h : i ≠ j) :
    (l.set i v).getD j 0 = l.getD j 0 := by
  induction l generalizing i j with
  | nil => simp
  | cons x xs ih =>
    cases i with
    | zero =>
      cases j with
      | zero => exact absurd rfl h
      | succ j' => rfl
    | succ i' =>
      cases j with
      | zero => rfl
      | succ j' => exact ih (by omega)

theorem getD_replicate_zero (n i : ℕ) :
    (List.replicate n (0 : ℕ)).getD i 0 = 0 := by
  induction n generalizing i with
  | zero => simp
  | succ k ih =>
    cases i with
    | zero => rfl
    | succ j => exact ih j

theorem matCount_cons (b : Bracket) (bks : List Bracket) (m : ℕ) :
    matCount (b :: bks) m =
      (if b.mat_number = some m then 1 else 0) + matCount bks m := by
  unfold matCount
  rw [List.filter_cons]
  split_ifs with h1 h2 h3 <;> first
    | (simp_all; omega)
    | simp_all

/-- The balance invariant of `_assign_mats`: running counts that are
within 1 of each other stay within 1 of each other when each bracket is
assigned to the first least-loaded mat. -/
theorem assignMatsLoop_balance :
    ∀ (bks : List Bracket) (counts : List ℕ),
      (∀ i j, i < counts.length → j < counts.length →
        counts.getD i 0 ≤ counts.getD j 0 + 1) →
      ∀ i j, i < counts.length → j < counts.length →
        counts.getD i 0 + matCount (assignMatsLoop counts bks) (i + 1) ≤
          counts.getD j 0 + matCount (assignMatsLoop counts bks) (j + 1) + 1 := by
  intro bks
  induction bks with
  | nil =>
    intro counts hbal i j hi hj
    simpa [assignMatsLoop, matCount] using hbal i j hi hj
  | cons b bs ih =>
    intro counts hbal i j hi hj
    have hne : counts ≠ [] := by
      intro hc; rw [hc] at hi; simp at hi
    set m := idxOfMin counts with hm
    have hmlt : m < counts.length := idxOfMin_lt hne
    have hmin : counts.getD m 0 = listMin 0 counts := getD_idxOfMin hne
    set counts' := counts.set m (counts.getD m 0 + 1) with hc'
    have hlen' : counts'.length = counts.length := by simp [hc']
    have hget : ∀ k, k < counts.length →
        counts'.getD k 0 = counts.getD k 0 + (if k = m then 1 else 0) := by
      intro k hk
      by_cases hkm : k = m
      · subst hkm
        rw [hc', getD_set_self hmlt]
        simp
      · rw [hc', getD_set_ne (fun he => hkm he.symm)]
        simp [hkm]
    have hbal' : ∀ a c, a < counts'.length → c < counts'.length →
        counts'.getD a 0 ≤ counts'.getD c 0 + 1 := by
      intro a c ha hc
      rw [hlen'] at ha hc
      rw [hget a ha, hget c hc]
      have hma := listMin_le a ha
      have hmc := listMin_le c hc
      have hb := hbal a c ha hc
      by_cases ham : a = m
      · subst ham
        by_cases hcm : c = m
        · subst hcm
          simp
        · simp only [if_pos rfl, hcm, if_false, reduceIte]
          omega
      · by_cases hcm : c = m
        · subst hcm
          simp only [ham, if_false, if_pos rfl, reduceIte]
          omega
        · simp only [ham, hcm, if_false, reduceIte]
          omega
    have hi2 : i < counts'.length := by omega
    have hj2 : j < counts'.length := by omega
    have ihh := ih counts' hbal' i j hi2 hj2
    have hout : assignMatsLoop counts (b :: bs) =
        { b with mat_number := some (m + 1) } :: assignMatsLoop counts' bs := rfl
    rw [hout, matCount_cons, matCount_cons]
    have hmeq : ∀ k : ℕ,
        (if ({ b with mat_number := some (m + 1) } : Bracket).mat_number =
            some (k + 1) then 1 else 0) = if k = m then 1 else 0 := by
      intro k
      by_cases hkm : k = m <;> first
        | (simp [hkm]; omega)
        | simp [hkm]
    rw [hmeq i, hmeq j]
    rw [hget i hi, hget j hj] at ihh
    omega

theorem assignMatsLoop_shape :
    ∀ (bks : List Bracket) (counts : List ℕ),
      (assignMatsLoop counts bks).map
          (fun b => (b.id, b.wrestlers, b.relaxations)) =
        bks.map (fun b => (b.id, b.wrestlers, b.relaxations)) := by
  intro bks
  induction bks with
  | nil => intro counts; rfl
  | cons b bs ih => intro counts; simp [assignMatsLoop, ih]

theorem assignMatsLoop_mats :
    ∀ (bks : List Bracket) (counts : List ℕ), counts ≠ [] →
      ∀ b ∈ assignMatsLoop counts bks,
        ∃ m, b.mat_number = some (m + 1) ∧ m < counts.length := by
  intro bks
  induction bks with
  | nil => intro counts _ b hb; simp [assignMatsLoop] at hb
  | cons x bs ih =>
    intro counts hne b hb
    have hout : assignMatsLoop counts (x :: bs) =
        { x with mat_number := some (idxOfMin counts + 1) } ::
          assignMatsLoop (counts.set (idxOfMin counts)
            (counts.getD (idxOfMin counts) 0 + 1)) bs := rfl
    rw [hout] at hb
    rcases List.mem_cons.mp hb with h | h
    · exact ⟨idxOfMin counts, by rw [h], idxOfMin_lt hne⟩
    · have hne' : counts.set (idxOfMin counts)
          (counts.getD (idxOfMin counts) 0 + 1) ≠ [] := by
        intro hc
        have := congrArg List.length hc
        simp at this
        exact hne this
      obtain ⟨m, hm, hlt⟩ := ih _ hne' b h
      exact ⟨m, hm, by simpa using hlt⟩

/-- (C6)  `_assign_mats` with a positive number of mats: the bracket list
keeps its order, ids, members and flags; every bracket receives a mat
number in `1..num_mats`; and the final per-mat bracket counts pairwise
differ by at most 1 — in particular the most- and least-loaded mats
differ by at most one bracket, whatever order the brackets arrive in. -/
theorem assignMats_spec (bks : List Bracket) (numMats : ℕ)
    (h : 0 < numMats) :
    ((assignMats bks numMats).map
        (fun b => (b.id, b.wrestlers, b.relaxations)) =
      bks.map (fun b => (b.id, b.wrestlers, b.relaxations))) ∧
    (∀ b ∈ assignMats bks numMats,
      ∃ m, b.mat_number = some m ∧ 1 ≤ m ∧ m ≤ numMats) ∧
    (∀ i j, i < numMats → j < numMats →
      matCount (assignMats bks numMats) (i + 1) ≤
        matCount (assignMats bks numMats) (j + 1) + 1) := by
  refine ⟨assignMatsLoop_shape bks _, ?_, ?_⟩
  · intro b hb
    have hne : List.replicate numMats (0 : ℕ) ≠ [] := by
      intro hc
      have := congrArg List.length hc
      simp at this
      omega
    obtain ⟨m, hm, hlt⟩ := assignMatsLoop_mats bks _ hne b hb
    exact ⟨m + 1, hm, by omega, by simpa using hlt⟩
  · intro i j hi hj
    have hb := assignMatsLoop_balance bks (List.replicate numMats 0)
      (by intro i j hi hj; simp [getD_replicate_zero]) i j
      (by simpa using hi) (by simpa using hj)
    simpa [getD_replicate_zero] using hb

/-- (C6, witness) -/
theorem assignMats_spec_witness :
    (((assignMats [⟨0, [], none, []⟩, ⟨1, [], none, []⟩, ⟨2, [], none, []⟩] 2).map
        (fun b => (b.id, b.wrestlers, b.relaxations)) =
      [⟨0, [], none, []⟩, ⟨1, [], none, []⟩,
        (⟨2, [], none, []⟩ : Bracket)].map
          (fun b => (b.id, b.wrestlers, b.relaxations))) ∧
    (∀ b ∈ assignMats [⟨0, [], none, []⟩, ⟨1, [], none, []⟩,
        ⟨2, [], none, []⟩] 2,
      ∃ m, b.mat_number = some m ∧ 1 ≤ m ∧ m ≤ 2) ∧
    (∀ i j, i < 2 → j < 2 →
      matCount (assignMats [⟨0, [], none, []⟩, ⟨1, [], none, []⟩,
        ⟨2, [], none, []⟩] 2) (i + 1) ≤
        matCount (assignMats [⟨0, [], none, []⟩, ⟨1, [], none, []⟩,
          ⟨2, [], none, []⟩] 2) (j + 1) + 1)) :=
  assignMats_spec [⟨0, [], none, []⟩, ⟨1, [], none, []⟩, ⟨2, [], none, []⟩] 2
    (by decide)

/-- (C8, witness) -/
theorem findPartners_size_or_none_witness :
    findPartners wA [wB] 2 10 2 2 = none ∨
      ∃ g, findPartners wA [wB] 2 10 2 2 = some g ∧
        g.length = 2 ∧ g.head? = some wA ∧
        (analyze g).weight_spread ≤ 10 ∧
        (analyze g).grade_spread ≤ 2 ∧
        (analyze g).max_same_school ≤ 2 :=
  findPartners_size_or_none wA [wB] 2 10 2 2 (by decide)


theorem filter_ne_sublist_erase (seed : Wrestler) (pool : List Wrestler) :
    (pool.filter (fun w => w.id ≠ seed.id)).Sublist (pool.erase seed) := by
  induction pool with
  | nil => simp
  | cons p ps ih =>
    rw [List.erase_cons, List.filter_cons]
    by_cases hps : p = seed
    · have hbeq : (p == seed) = true := by simp [hps]
      rw [if_pos hbeq]
      have hid : (decide (p.id ≠ seed.id)) = false := by simp [hps]
      rw [hid]
      simp only [Bool.false_eq_true, if_false]
      exact List.filter_sublist ps
    · have hbeq : (p == seed) = false := by simp [hps]
      rw [hbeq]
      simp only [Bool.false_eq_true, if_false]
      by_cases hid : p.id ≠ seed.id
      · have hd : (decide (p.id ≠ seed.id)) = true := by simp [hid]
        rw [hd]
        simp only [if_true]
        exact ih.cons₂ p
      · have hd : (decide (p.id ≠ seed.id)) = false := by
          simp only [decide_eq_false_iff_not]
          exact hid
        rw [hd]
        simp only [Bool.false_eq_true, if_false]
        exact ih.cons p

theorem findPartners_subperm {seed : Wrestler} {pool : List Wrestler}
    {t : ℕ} {maxW : Q} {maxG : ℤ} {maxS : ℕ} {g : List Wrestler}
    (hseed : seed ∈ pool)
    (h : findPartners seed pool t maxW maxG maxS = some g) :
    g.Subperm pool := by
  obtain ⟨-, extra, hg, hsub⟩ := findPartners_eq_some h
  have h1 : extra.Subperm (pool.erase seed) :=
    hsub.trans (filter_ne_sublist_erase seed pool).subperm
  have h2 : (seed :: extra).Subperm (seed :: pool.erase seed) :=
    (List.subperm_cons seed).mpr h1
  rw [hg]
  exact h2.trans (List.perm_cons_erase hseed).symm.subperm

theorem set_get?_eq {α : Type} {l : List α} {i : ℕ} {a : α}
    (h : l.get? i = some a) : l.set i a = l := by
  induction l generalizing i with
  | nil => simp
  | cons x xs ih =>
    cases i with
    | zero => simp_all
    | succ j =>
      have hx := ih (i := j) (by simpa using h)
      simp [hx]

theorem foldl_preserve {α β : Type} {P : α → Prop} {f : α → β → α}
    (hstep : ∀ s a, P s → P (f s a)) :
    ∀ (l : List β) (s : α), P s → P (l.foldl f s) := by
  intro l
  induction l with
  | nil => intro s hs; exact hs
  | cons x xs ih => intro s hs; exact ih (f s x) (hstep s x hs)

theorem commitGroup_available (g : List Wrestler) (st : MState) :
    (commitGroup g st).available = removeAll g st.available := rfl

theorem commitGroup_bid (g : List Wrestler) (st : MState) :
    (commitGroup g st).bid = st.bid + 1 := rfl

theorem commitGroup_allMembers (g : List Wrestler) (st : MState) :
    allMembers (commitGroup g st).brackets = allMembers st.brackets ++ g := by
  simp [commitGroup, allMembers]

theorem commitGroup_ids (g : List Wrestler) (st : MState) :
    (commitGroup g st).brackets.map Bracket.id =
      st.brackets.map Bracket.id ++ [st.bid] := by
  simp [commitGroup]

theorem commitGroup_mem {g : List Wrestler} {st : MState} {b : Bracket}
    (h : b ∈ (commitGroup g st).brackets) :
    b ∈ st.brackets ∨
      (b.wrestlers = g ∧ b.relaxations = (analyze g).violations ∧
        b.id = st.bid) := by
  simp only [commitGroup, List.mem_append, List.mem_singleton] at h
  rcases h with h | h
  · exact Or.inl h
  · subst h
    exact Or.inr ⟨rfl, rfl, rfl⟩

theorem commitGroup_good {t : ℕ} {roster : List Wrestler} {st : MState}
    {g : List Wrestler} (hst : GoodState t roster st)
    (hsub : g.Subperm st.available)
    (hsize : 3 ≤ t → 3 ≤ g.length ∧ g.length ≤ t) :
    GoodState t roster (commitGroup g st) := by
  refine ⟨?_, ?_, ?_, ?_, ?_⟩
  · rw [commitGroup_available, commitGroup_allMembers]
    calc removeAll g st.available ++ (allMembers st.brackets ++ g)
        ~ removeAll g st.available ++ (g ++ allMembers st.brackets) :=
          List.Perm.append_left _ List.perm_append_comm
      _ = (removeAll g st.available ++ g) ++ allMembers st.brackets :=
          (List.append_assoc _ _ _).symm
      _ ~ st.available ++ allMembers st.brackets :=
          List.Perm.append (removeAll_perm hsub) (List.Perm.refl _)
      _ ~ roster := hst.perm
  · rw [commitGroup_ids]
    refine List.Nodup.append hst.idsNodup (by simp) ?_
    intro x hx hy
    simp only [List.mem_singleton] at hy
    subst hy
    obtain ⟨b, hb, hbid⟩ := List.mem_map.mp hx
    have := hst.idsLt b hb
    omega
  · intro b hb
    rw [commitGroup_bid]
    rcases commitGroup_mem hb with h | ⟨-, -, h⟩
    · have := hst.idsLt b h
      omega
    · omega
  · intro ht b hb
    rcases commitGroup_mem hb with h | ⟨h, -, -⟩
    · exact hst.sizes ht b h
    · rw [h]
      exact hsize ht
  · intro b hb
    rcases commitGroup_mem hb with h | ⟨h1, h2, -⟩
    · exact hst.relax b h
    · rw [h1]
      exact h2

theorem findBestBracketIsolated_some {pool : List Wrestler} {t : ℕ}
    {maxW : Q} {maxG : ℤ} {maxS : ℕ} {g : List Wrestler}
    (h : findBestBracketIsolated pool t maxW maxG maxS = some g) :
    g.Subperm pool ∧ g.length = t := by
  simp only [findBestBracketIsolated] at h
  obtain ⟨seed, hseed, hf⟩ := firstSome_eq_some _ h
  have hseedp : seed ∈ pool := mem_sortByDesc _ hseed
  cases hfp : findPartners seed pool t maxW maxG maxS with
  | none =>
    simp only [hfp] at hf
    exact absurd hf (by simp)
  | some gr =>
    simp only [hfp] at hf
    split at hf
    · rename_i hc
      have hgr : gr = g := Option.some_injective _ hf
      subst hgr
      exact ⟨findPartners_subperm hseedp hfp, hc.2⟩
    · exact absurd hf (by simp)

theorem phase0_good {t : ℕ} {roster : List Wrestler} {st : MState}
    (hst : GoodState t roster st) : GoodState t roster (phase0 t st) := by
  unfold phase0
  refine foldl_preserve ?_ _ _ hst
  intro s seed hs
  split
  · rename_i hcond
    cases htry : tryTolerances seed s.available t with
    | none =>
      show GoodState t roster s
      exact hs
    | some g =>
      show GoodState t roster (commitGroup g s)
      obtain ⟨p, hp, hfp⟩ := firstSome_eq_some _ htry
      refine commitGroup_good hs (findPartners_subperm hcond.1 hfp) ?_
      intro ht
      have hlen := (findPartners_len_tol hfp).1 (by omega)
      omega
  · exact hs

theorem phaseLoop_good {t t' : ℕ} {roster : List Wrestler} {maxW : Q}
    {maxG : ℤ} (hts : 3 ≤ t → 3 ≤ t' ∧ t' ≤ t) :
    ∀ (fuel : ℕ) (st : MState), GoodState t roster st →
      GoodState t roster (phaseLoop t' maxW maxG fuel st) := by
  intro fuel
  induction fuel with
  | zero => intro st hst; exact hst
  | succ fuel ih =>
    intro st hst
    simp only [phaseLoop]
    split
    · cases hf : findBestBracketIsolated st.available t' maxW maxG 2 with
      | none =>
        show GoodState t roster st
        exact hst
      | some g =>
        show GoodState t roster (phaseLoop t' maxW maxG fuel (commitGroup g st))
        apply ih
        obtain ⟨hsub, hlen⟩ := findBestBracketIsolated_some hf
        refine commitGroup_good hst hsub ?_
        intro ht
        obtain ⟨h3, hle⟩ := hts ht
        omega
    · exact hst

theorem runPhases14_good {t : ℕ} {roster : List Wrestler} {st : MState}
    (hst : GoodState t roster st) : GoodState t roster (runPhases14 t st) := by
  unfold runPhases14
  have hts : 3 ≤ t → 3 ≤ t ∧ t ≤ t := fun ht => ⟨ht, Nat.le_refl t⟩
  exact phaseLoop_good hts _ _ (phaseLoop_good hts _ _
    (phaseLoop_good hts _ _ (phaseLoop_good hts _ _ hst)))

theorem runPhases56_good {t : ℕ} {roster : List Wrestler} {st : MState}
    (hst : GoodState t roster st) :
    GoodState t roster (runPhases56 t (max 3 (t - 1)) st) := by
  unfold runPhases56
  split
  · rename_i h3
    have hts : 3 ≤ t → 3 ≤ max 3 (t - 1) ∧ max 3 (t - 1) ≤ t := by omega
    exact phaseLoop_good hts _ _ (phaseLoop_good hts _ _
      (phaseLoop_good hts _ _ (phaseLoop_good hts _ _ hst)))
  · exact hst

theorem scan7_some {t : ℕ} {avail : List Wrestler} {bks : List Bracket}
    {w : Wrestler} {i : ℕ} {sc : Q}
    (h : scan7 t avail bks = some (w, i, sc)) :
    w ∈ avail ∧ ∃ b, bks.get? i = some b ∧ b.wrestlers.length < t := by
  have hmem := selectMinBy_mem _ h
  simp only [List.mem_flatMap] at hmem
  obtain ⟨w', hw', hmem2⟩ := hmem
  simp only [List.mem_filterMap] at hmem2
  obtain ⟨ib, hib, hf⟩ := hmem2
  obtain ⟨i', b⟩ := ib
  split_ifs at hf with h1 h2 h3 h4
  simp only [Option.some.injEq, Prod.mk.injEq] at hf
  obtain ⟨hww, hii, -⟩ := hf
  subst hww
  subst hii
  exact ⟨hw', b, withIdx_zero_get hib, Nat.not_le.mp h1⟩

theorem absorb_def {w : Wrestler} {i : ℕ} {st : MState} {b : Bracket}
    (hb : st.brackets.get? i = some b) :
    absorb w i st =
      { st with
        brackets := st.brackets.set i (pushW b w)
        available := st.available.erase w } := by
  unfold absorb
  rw [hb]
  rfl

theorem erase_append_singleton_perm {w : Wrestler} {l : List Wrestler}
    (hw : w ∈ l) : (l.erase w ++ [w]).Perm l := by
  calc l.erase w ++ [w]
      ~ [w] ++ l.erase w := List.perm_append_comm
    _ = w :: l.erase w := rfl
    _ ~ l := (List.perm_cons_erase hw).symm

theorem allMembers_set_append_perm {bks : List Bracket} {i : ℕ} {b : Bracket}
    {w : Wrestler} (hb : bks.get? i = some b) :
    (allMembers (bks.set i (pushW b w))).Perm (allMembers bks ++ [w]) := by
  have hA := @allMembers_set_perm bks i b (pushW b w) hb
  refine (List.perm_append_right_iff b.wrestlers).mp ?_
  calc allMembers (bks.set i (pushW b w)) ++ b.wrestlers
      ~ allMembers bks ++ (b.wrestlers ++ [w]) := hA
    _ ~ allMembers bks ++ ([w] ++ b.wrestlers) :=
        List.Perm.append_left _ List.perm_append_comm
    _ = (allMembers bks ++ [w]) ++ b.wrestlers := (List.append_assoc _ _ _).symm

theorem absorb_good {t : ℕ} {roster : List Wrestler} {st : MState}
    {w : Wrestler} {i : ℕ} {b : Bracket}
    (hst : GoodState t roster st) (hw : w ∈ st.available)
    (hb : st.brackets.get? i = some b) (hlen : b.wrestlers.length < t) :
    GoodState t roster (absorb w i st) := by
  rw [absorb_def hb]
  have hbmem : b ∈ st.brackets := List.get?_mem hb
  refine ⟨?_, ?_, ?_, ?_, ?_⟩
  · show (st.available.erase w ++
      allMembers (st.brackets.set i (pushW b w))).Perm roster
    calc st.available.erase w ++ allMembers (st.brackets.set i (pushW b w))
        ~ st.available.erase w ++ (allMembers st.brackets ++ [w]) :=
          List.Perm.append_left _ (allMembers_set_append_perm hb)
      _ ~ st.available.erase w ++ ([w] ++ allMembers st.brackets) :=
          List.Perm.append_left _ List.perm_append_comm
      _ = (st.available.erase w ++ [w]) ++ allMembers st.brackets :=
          (List.append_assoc _ _ _).symm
      _ ~ st.available ++ allMembers st.brackets :=
          List.Perm.append (erase_append_singleton_perm hw) (List.Perm.refl _)
      _ ~ roster := hst.perm
  · show ((st.brackets.set i (pushW b w)).map Bracket.id).Nodup
    rw [List.map_set]
    show (((st.brackets.map Bracket.id).set i b.id)).Nodup
    have hset : ((st.brackets.map Bracket.id).set i b.id) =
        st.brackets.map Bracket.id := by
      refine set_get?_eq ?_
      rw [List.get?_eq_getElem?, List.getElem?_map, ← List.get?_eq_getElem?,
        hb]
      rfl
    rw [hset]
    exact hst.idsNodup
  · intro b'' hb''
    rcases List.mem_or_eq_of_mem_set hb'' with h | h
    · exact hst.idsLt b'' h
    · rw [h]
      exact hst.idsLt b hbmem
  · intro ht b'' hb''
    rcases List.mem_or_eq_of_mem_set hb'' with h | h
    · exact hst.sizes ht b'' h
    · rw [h]
      have := hst.sizes ht b hbmem
      simp only [pushW, List.length_append, List.length_singleton]
      omega
  · intro b'' hb''
    rcases List.mem_or_eq_of_mem_set hb'' with h | h
    · exact hst.relax b'' h
    · rw [h]
      rfl

theorem phase7_good {t : ℕ} {roster : List Wrestler} :
    ∀ (fuel : ℕ) (st : MState), GoodState t roster st →
      GoodState t roster (phase7 t fuel st) := by
  intro fuel
  induction fuel with
  | zero => intro st hst; exact hst
  | succ fuel ih =>
    intro st hst
    simp only [phase7]
    cases hs : scan7 t st.available st.brackets with
    | none => exact hst
    | some p =>
      obtain ⟨w, i, sc⟩ := p
      show GoodState t roster (phase7 t fuel (absorb w i st))
      obtain ⟨hw, b, hb, hlen⟩ := scan7_some hs
      exact ih _ (absorb_good hst hw hb hlen)

theorem findDirect_some {t : ℕ} {w : Wrestler} {bks : List Bracket}
    {i : ℕ} {b : Bracket} (h : findDirect t w bks = some (i, b)) :
    bks.get? i = some b ∧ b.wrestlers.length < t := by
  obtain ⟨ib, hib, hf⟩ := firstSome_eq_some _ h
  obtain ⟨i', b'⟩ := ib
  split_ifs at hf with h1 h2
  simp only [Option.some.injEq, Prod.mk.injEq] at hf
  obtain ⟨hii, hbb⟩ := hf
  subst hii
  subst hbb
  exact ⟨withIdx_zero_get hib, Nat.not_le.mp h1⟩

theorem findBestSwap_some {t : ℕ} {w : Wrestler} {bks : List Bracket}
    {si di : ℕ} {pulled : Wrestler} {sc : Q}
    (h : findBestSwap t w bks = some (si, pulled, di, sc)) :
    ∃ sb db, bks.get? si = some sb ∧ bks.get? di = some db ∧
      pulled ∈ sb.wrestlers ∧ 4 ≤ sb.wrestlers.length ∧
      db.wrestlers.length < t ∧ db.id ≠ sb.id := by
  have hmem := selectMinBy_mem _ h
  simp only [swapCandidates, List.mem_flatMap] at hmem
  obtain ⟨bb, hbb, hmem2⟩ := hmem
  obtain ⟨si', sb⟩ := bb
  by_cases h4 : sb.wrestlers.length < 4
  · rw [if_pos h4] at hmem2
    simp at hmem2
  · rw [if_neg h4] at hmem2
    simp only [List.mem_flatMap] at hmem2
    obtain ⟨pullW, hpull, hmem3⟩ := hmem2
    split_ifs at hmem3 with hadm
    · simp only [List.mem_filterMap] at hmem3
      obtain ⟨ob, hob, hf⟩ := hmem3
      obtain ⟨oi, db⟩ := ob
      split_ifs at hf with hid hfull hadm2
      simp only [Option.some.injEq, Prod.mk.injEq] at hf
      obtain ⟨hsi, hpw, hdi, -⟩ := hf
      subst hsi
      subst hpw
      subst hdi
      exact ⟨sb, db, withIdx_zero_get hbb, withIdx_zero_get hob, hpull,
        Nat.not_lt.mp h4, Nat.not_le.mp hfull, hid⟩
    · simp at hmem3

theorem doSwap_def {bks : List Bracket} {si di : ℕ} {sb db : Bracket}
    {pulled w : Wrestler}
    (hsi : bks.get? si = some sb) (hdi : bks.get? di = some db) :
    doSwap si pulled w di bks =
      (bks.set si (pullPush sb pulled w)).set di (pushW db pulled) := by
  unfold doSwap
  rw [hsi, hdi]
  rfl

theorem doSwap_perm {bks : List Bracket} {si di : ℕ} {sb db : Bracket}
    {pulled w : Wrestler}
    (hsi : bks.get? si = some sb) (hdi : bks.get? di = some db)
    (hne : si ≠ di) (hpull : pulled ∈ sb.wrestlers) :
    (allMembers (doSwap si pulled w di bks)).Perm (allMembers bks ++ [w]) := by
  rw [doSwap_def hsi hdi]
  have hdi1 : (bks.set si (pullPush sb pulled w)).get? di = some db := by
    rw [List.get?_eq_getElem?, List.getElem?_set_ne hne,
      ← List.get?_eq_getElem?]
    exact hdi
  have hB := allMembers_set_append_perm (w := pulled) hdi1
  have hA := @allMembers_set_perm bks si sb (pullPush sb pulled w) hsi
  refine hB.trans ?_
  refine (List.perm_append_right_iff (sb.wrestlers.erase pulled)).mp ?_
  calc (allMembers (bks.set si (pullPush sb pulled w)) ++ [pulled]) ++
        sb.wrestlers.erase pulled
      = allMembers (bks.set si (pullPush sb pulled w)) ++
          ([pulled] ++ sb.wrestlers.erase pulled) := List.append_assoc _ _ _
    _ = allMembers (bks.set si (pullPush sb pulled w)) ++
          (pulled :: sb.wrestlers.erase pulled) := rfl
    _ ~ allMembers (bks.set si (pullPush sb pulled w)) ++ sb.wrestlers :=
        List.Perm.append_left _ (List.perm_cons_erase hpull).symm
    _ ~ allMembers bks ++ (sb.wrestlers.erase pulled ++ [w]) := hA
    _ ~ allMembers bks ++ ([w] ++ sb.wrestlers.erase pulled) :=
        List.Perm.append_left _ List.perm_append_comm
    _ = (allMembers bks ++ [w]) ++ sb.wrestlers.erase pulled :=
        (List.append_assoc _ _ _).symm

theorem phase8Step_direct_def {t : ℕ} {bks : List Bracket}
    {still : List Wrestler} {w : Wrestler} {i : ℕ} {b : Bracket}
    (hfd : findDirect t w bks = some (i, b)) :
    phase8Step t (bks, still) w = (bks.set i (pushW b w), still) := by
  unfold phase8Step
  rw [hfd]
  rfl

theorem phase8Step_swap_def {t : ℕ} {bks : List Bracket}
    {still : List Wrestler} {w : Wrestler} {si di : ℕ} {pulled : Wrestler}
    {sc : Q} (hfd : findDirect t w bks = none)
    (hsw : findBestSwap t w bks = some (si, pulled, di, sc)) :
    phase8Step t (bks, still) w = (doSwap si pulled w di bks, still) := by
  unfold phase8Step
  rw [hfd, hsw]

theorem phase8Step_none_def {t : ℕ} {bks : List Bracket}
    {still : List Wrestler} {w : Wrestler}
    (hfd : findDirect t w bks = none) (hsw : findBestSwap t w bks = none) :
    phase8Step t (bks, still) w = (bks, still ++ [w]) := by
  unfold phase8Step
  rw [hfd, hsw]

theorem append_singleton_shuffle {α : Type} (M still : List α) (w : α) :
    ((M ++ [w]) ++ still).Perm ((M ++ still) ++ [w]) := by
  calc (M ++ [w]) ++ still
      = M ++ ([w] ++ still) := List.append_assoc _ _ _
    _ ~ M ++ (still ++ [w]) := List.Perm.append_left _ List.perm_append_comm
    _ = (M ++ still) ++ [w] := (List.append_assoc _ _ _).symm

theorem map_id_get? {bks : List Bracket} {i : ℕ} {b : Bracket}
    (h : bks.get? i = some b) : (bks.map Bracket.id).get? i = some b.id := by
  rw [List.get?_eq_getElem?, List.getElem?_map, ← List.get?_eq_getElem?, h]
  rfl

theorem phase8Step_good {t : ℕ} {bks : List Bracket} {still : List Wrestler}
    (w : Wrestler)
    (hsz : 3 ≤ t → ∀ b ∈ bks, 3 ≤ b.wrestlers.length ∧ b.wrestlers.length ≤ t)
    (hrel : ∀ b ∈ bks, b.relaxations = (analyze b.wrestlers).violations) :
    ((allMembers (phase8Step t (bks, still) w).1 ++
        (phase8Step t (bks, still) w).2).Perm
      ((allMembers bks ++ still) ++ [w])) ∧
    ((phase8Step t (bks, still) w).1.map Bracket.id = bks.map Bracket.id) ∧
    (3 ≤ t → ∀ b ∈ (phase8Step t (bks, still) w).1,
      3 ≤ b.wrestlers.length ∧ b.wrestlers.length ≤ t) ∧
    (∀ b ∈ (phase8Step t (bks, still) w).1,
      b.relaxations = (analyze b.wrestlers).violations) := by
  cases hfd : findDirect t w bks with
  | some ib =>
    obtain ⟨i, b⟩ := ib
    rw [phase8Step_direct_def hfd]
    obtain ⟨hget, hlen⟩ := findDirect_some hfd
    have hbmem : b ∈ bks := List.get?_mem hget
    refine ⟨?_, ?_, ?_, ?_⟩
    · calc allMembers (bks.set i (pushW b w)) ++ still
          ~ (allMembers bks ++ [w]) ++ still :=
            List.Perm.append_right _ (allMembers_set_append_perm hget)
        _ ~ (allMembers bks ++ still) ++ [w] := append_singleton_shuffle ..
    · rw [List.map_set]
      show ((bks.map Bracket.id).set i b.id) = _
      exact set_get?_eq (map_id_get? hget)
    · intro ht b' hb'
      rcases List.mem_or_eq_of_mem_set hb' with h | h
      · exact hsz ht b' h
      · rw [h]
        have := hsz ht b hbmem
        simp only [pushW, List.length_append, List.length_singleton]
        omega
    · intro b' hb'
      rcases List.mem_or_eq_of_mem_set hb' with h | h
      · exact hrel b' h
      · rw [h]
        rfl
  | none =>
    cases hsw : findBestSwap t w bks with
    | some sw =>
      obtain ⟨si, pulled, di, sc⟩ := sw
      rw [phase8Step_swap_def hfd hsw]
      obtain ⟨sb, db, hsi, hdi, hpull, h4, hdlen, hideq⟩ :=
        findBestSwap_some hsw
      have hne : si ≠ di := by
        intro he
        rw [he, hdi] at hsi
        have hdb : db = sb := Option.some_injective _ hsi
        rw [hdb] at hideq
        exact hideq rfl
      have hsmem : sb ∈ bks := List.get?_mem hsi
      have hdmem : db ∈ bks := List.get?_mem hdi
      have hplen : (pullPush sb pulled w).wrestlers.length =
          sb.wrestlers.length := by
        simp only [pullPush, List.length_append, List.length_singleton,
          List.length_erase_of_mem hpull]
        omega
      refine ⟨?_, ?_, ?_, ?_⟩
      · calc allMembers (doSwap si pulled w di bks) ++ still
            ~ (allMembers bks ++ [w]) ++ still :=
              List.Perm.append_right _ (doSwap_perm hsi hdi hne hpull)
          _ ~ (allMembers bks ++ still) ++ [w] := append_singleton_shuffle ..
      · rw [doSwap_def hsi hdi, List.map_set, List.map_set]
        show (((bks.map Bracket.id).set si sb.id).set di db.id) = _
        rw [set_get?_eq (map_id_get? hsi)]
        exact set_get?_eq (map_id_get? hdi)
      · intro ht b' hb'
        rw [doSwap_def hsi hdi] at hb'
        rcases List.mem_or_eq_of_mem_set hb' with h | h
        · rcases List.mem_or_eq_of_mem_set h with h2 | h2
          · exact hsz ht b' h2
          · rw [h2, hplen]
            exact hsz ht sb hsmem
        · rw [h]
          have := hsz ht db hdmem
          simp only [pushW, List.length_append, List.length_singleton]
          omega
      · intro b' hb'
        rw [doSwap_def hsi hdi] at hb'
        rcases List.mem_or_eq_of_mem_set hb' with h | h
        · rcases List.mem_or_eq_of_mem_set h with h2 | h2
          · exact hrel b' h2
          · rw [h2]
            rfl
        · rw [h]
          rfl
    | none =>
      rw [phase8Step_none_def hfd hsw]
      refine ⟨?_, rfl, fun ht b' hb' => hsz ht b' hb',
        fun b' hb' => hrel b' hb'⟩
      rw [← List.append_assoc]

theorem phase8_fold_good {t : ℕ} :
    ∀ (ws : List Wrestler) (bks : List Bracket) (still : List Wrestler),
      (3 ≤ t → ∀ b ∈ bks, 3 ≤ b.wrestlers.length ∧ b.wrestlers.length ≤ t) →
      (∀ b ∈ bks, b.relaxations = (analyze b.wrestlers).violations) →
      ((allMembers (ws.foldl (phase8Step t) (bks, still)).1 ++
          (ws.foldl (phase8Step t) (bks, still)).2).Perm
        ((allMembers bks ++ still) ++ ws)) ∧
      ((ws.foldl (phase8Step t) (bks, still)).1.map Bracket.id =
        bks.map Bracket.id) ∧
      (3 ≤ t → ∀ b ∈ (ws.foldl (phase8Step t) (bks, still)).1,
        3 ≤ b.wrestlers.length ∧ b.wrestlers.length ≤ t) ∧
      (∀ b ∈ (ws.foldl (phase8Step t) (bks, still)).1,
        b.relaxations = (analyze b.wrestlers).violations) := by
  intro ws
  induction ws with
  | nil =>
    intro bks still hsz hrel
    exact ⟨by simp, rfl, hsz, hrel⟩
  | cons w rest ih =>
    intro bks still hsz hrel
    obtain ⟨hperm1, hids1, hsz1, hrel1⟩ :=
      @phase8Step_good t bks still w hsz hrel
    obtain ⟨hperm2, hids2, hsz2, hrel2⟩ :=
      ih (phase8Step t (bks, still) w).1 (phase8Step t (bks, still) w).2
        hsz1 hrel1
    rw [List.foldl_cons]
    refine ⟨?_, hids2.trans hids1, hsz2, hrel2⟩
    calc allMembers (rest.foldl (phase8Step t) (phase8Step t (bks, still) w)).1
          ++ (rest.foldl (phase8Step t) (phase8Step t (bks, still) w)).2
        ~ (allMembers (phase8Step t (bks, still) w).1 ++
            (phase8Step t (bks, still) w).2) ++ rest := hperm2
      _ ~ ((allMembers bks ++ still) ++ [w]) ++ rest :=
          List.Perm.append_right _ hperm1
      _ = (allMembers bks ++ still) ++ ([w] ++ rest) := List.append_assoc _ _ _
      _ = (allMembers bks ++ still) ++ (w :: rest) := rfl

theorem phase8_good {t : ℕ} {roster : List Wrestler} {st : MState}
    (hst : GoodState t roster st) : GoodState t roster (phase8 t st) := by
  unfold phase8
  split
  · exact hst
  · obtain ⟨hperm, hids, hsz, hrel⟩ :=
      phase8_fold_good st.available st.brackets [] hst.sizes hst.relax
    refine ⟨?_, ?_, ?_, ?_, ?_⟩
    · show ((st.available.foldl (phase8Step t) (st.brackets, [])).2 ++
        allMembers
          (st.available.foldl (phase8Step t) (st.brackets, [])).1).Perm roster
      calc (st.available.foldl (phase8Step t) (st.brackets, [])).2 ++
            allMembers (st.available.foldl (phase8Step t) (st.brackets, [])).1
          ~ allMembers
              (st.available.foldl (phase8Step t) (st.brackets, [])).1 ++
              (st.available.foldl (phase8Step t) (st.brackets, [])).2 :=
            List.perm_append_comm
        _ ~ (allMembers st.brackets ++ []) ++ st.available := hperm
        _ = allMembers st.brackets ++ st.available := by simp
        _ ~ st.available ++ allMembers st.brackets := List.perm_append_comm
        _ ~ roster := hst.perm
    · show (((st.available.foldl (phase8Step t)
        (st.brackets, [])).1.map Bracket.id)).Nodup
      rw [hids]
      exact hst.idsNodup
    · intro b hb
      have hmm : b.id ∈ ((st.available.foldl (phase8Step t)
          (st.brackets, [])).1.map Bracket.id) := List.mem_map_of_mem _ hb
      rw [hids] at hmm
      obtain ⟨b0, hb0, hid0⟩ := List.mem_map.mp hmm
      show b.id < st.bid
      rw [← hid0]
      exact hst.idsLt b0 hb0
    · exact fun ht b hb => hsz ht b hb
    · exact fun b hb => hrel b hb

theorem assignMatsLoop_fields :
    ∀ (bks : List Bracket) (counts : List ℕ),
      (assignMatsLoop counts bks).map Bracket.wrestlers =
        bks.map Bracket.wrestlers := by
  intro bks
  induction bks with
  | nil => intro counts; rfl
  | cons b bs ih => intro counts; simp [assignMatsLoop, ih]

theorem allMembers_eq_of_map_eq : ∀ {l l' : List Bracket},
    l.map Bracket.wrestlers = l'.map Bracket.wrestlers →
    allMembers l = allMembers l' := by
  intro l
  induction l with
  | nil =>
    intro l' h
    cases l' with
    | nil => rfl
    | cons b bs => simp at h
  | cons b bs ih =>
    intro l' h
    cases l' with
    | nil => simp at h
    | cons c cs =>
      simp only [List.map_cons, List.cons.injEq] at h
      obtain ⟨h1, h2⟩ := h
      show b.wrestlers ++ allMembers bs = c.wrestlers ++ allMembers cs
      rw [h1, ih h2]

theorem assignMats_members (bks : List Bracket) (nm : ℕ) :
    allMembers (assignMats bks nm) = allMembers bks :=
  allMembers_eq_of_map_eq (assignMatsLoop_fields bks (List.replicate nm 0))

theorem assignMats_mem_shape {bks : List Bracket} {nm : ℕ} {b : Bracket}
    (hb : b ∈ assignMats bks nm) :
    ∃ b0 ∈ bks, b.wrestlers = b0.wrestlers ∧
      b.relaxations = b0.relaxations := by
  have h := assignMatsLoop_shape bks (List.replicate nm 0)
  have hmem : (b.id, b.wrestlers, b.relaxations) ∈
      (assignMats bks nm).map
        (fun b => (b.id, b.wrestlers, b.relaxations)) :=
    List.mem_map_of_mem _ hb
  rw [show (assignMats bks nm) = assignMatsLoop (List.replicate nm 0) bks
    from rfl, h] at hmem
  obtain ⟨b0, hb0, heq⟩ := List.mem_map.mp hmem
  simp only [Prod.mk.injEq] at heq
  exact ⟨b0, hb0, heq.2.1.symm, heq.2.2.symm⟩

theorem initial_good (roster : List Wrestler) (bs : ℕ) :
    GoodState bs roster (⟨roster, [], 0⟩ : MState) := by
  refine ⟨?_, ?_, ?_, ?_, ?_⟩
  · show (roster ++ allMembers []).Perm roster
    simp [allMembers]
  · show (([] : List Bracket).map Bracket.id).Nodup
    simp
  · intro b hb
    simp at hb
  · intro ht b hb
    simp at hb
  · intro b hb
    simp at hb

theorem matchAll_good (roster : List Wrestler) (bs nm : ℕ) :
    ∃ st : MState, GoodState bs roster st ∧
      matchAll roster bs nm = (assignMats st.brackets nm, st.available) := by
  refine ⟨phase8 bs (phase7 bs
      ((runPhases56 bs (max 3 (bs - 1)) (runPhases14 bs
          (phase0 bs ⟨roster, [], 0⟩))).available.length + 1)
      (runPhases56 bs (max 3 (bs - 1)) (runPhases14 bs
        (phase0 bs ⟨roster, [], 0⟩)))), ?_, rfl⟩
  exact phase8_good (phase7_good _ _ (runPhases56_good (runPhases14_good
    (phase0_good (initial_good roster bs)))))

/-- (C1)  Partition invariant: for every roster with distinct ids and
every configuration, the concatenation of all returned bracket member
lists with the unmatched list is a permutation of the input roster, and
every roster wrestler occurs exactly once in that concatenation — so each
wrestler lands in exactly one bracket or in the unmatched list, never in
zero places, never twice (in two brackets, twice in one bracket, or both
placed and unmatched). -/
theorem matchAll_partition (roster : List Wrestler) (bs nm : ℕ)
    (hids : (roster.map Wrestler.id).Nodup) :
    (((matchAll roster bs nm).1.flatMap Bracket.wrestlers ++
        (matchAll roster bs nm).2).Perm roster) ∧
    (∀ w ∈ roster,
      ((matchAll roster bs nm).1.flatMap Bracket.wrestlers ++
        (matchAll roster bs nm).2).count w = 1) := by
  obtain ⟨st, hst, heq⟩ := matchAll_good roster bs nm
  rw [heq]
  have hperm : ((assignMats st.brackets nm).flatMap Bracket.wrestlers ++
      st.available).Perm roster := by
    show (allMembers (assignMats st.brackets nm) ++ st.available).Perm roster
    rw [assignMats_members]
    exact List.perm_append_comm.trans hst.perm
  refine ⟨hperm, ?_⟩
  intro w hw
  have hnd : roster.Nodup := List.Nodup.of_map _ hids
  rw [hperm.count_eq]
  exact List.count_eq_one_of_mem hnd hw

/-- (C1, witness) -/
theorem matchAll_partition_witness :
    (((matchAll wr4 4 3).1.flatMap Bracket.wrestlers ++
        (matchAll wr4 4 3).2).Perm wr4) ∧
    ((matchAll wr4 4 3).1.flatMap Bracket.wrestlers ++
        (matchAll wr4 4 3).2).count wC1 = 1 :=
  ⟨(matchAll_partition wr4 4 3 (by decide)).1,
    (matchAll_partition wr4 4 3 (by decide)).2 wC1 (by decide)⟩

/-- (C2)  Size invariant: for every run with `bracket_size ≥ 3`, every
bracket in the final output has between 3 and `bracket_size` members —
no bracket of size 1 or 2 survives, and no bracket exceeds the target. -/
theorem matchAll_sizes (roster : List Wrestler) (bs nm : ℕ) (h3 : 3 ≤ bs) :
    ∀ b ∈ (matchAll roster bs nm).1,
      3 ≤ b.wrestlers.length ∧ b.wrestlers.length ≤ bs := by
  obtain ⟨st, hst, heq⟩ := matchAll_good roster bs nm
  rw [heq]
  intro b hb
  obtain ⟨b0, hb0, hw, -⟩ := assignMats_mem_shape hb
  rw [hw]
  exact hst.sizes h3 b0 hb0

/-- (C2, witness) -/
theorem matchAll_sizes_witness :
    3 ≤ ((matchAll wr4 4 3).1.getD 0 ⟨0, [], none, []⟩).wrestlers.length ∧
      ((matchAll wr4 4 3).1.getD 0 ⟨0, [], none, []⟩).wrestlers.length ≤ 4 :=
  matchAll_sizes wr4 4 3 (by decide) _ (by decide)

/-- (C5)  Flags/re-analysis round trip: every bracket returned by
`match_all` stores exactly the relaxation flags obtained by re-running
the compatibility analysis on its final member list — the engine
recomputes the flags after every membership mutation (creation, Phase 7
absorption, Phase 8 absorption and swaps), so they are never stale. -/
theorem matchAll_relax_roundtrip (roster : List Wrestler) (bs nm : ℕ) :
    ∀ b ∈ (matchAll roster bs nm).1,
      b.relaxations = (analyze b.wrestlers).violations := by
  obtain ⟨st, hst, heq⟩ := matchAll_good roster bs nm
  rw [heq]
  intro b hb
  obtain ⟨b0, hb0, hw, hr⟩ := assignMats_mem_shape hb
  rw [hw, hr]
  exact hst.relax b0 hb0

/-- (C5, witness) -/
theorem matchAll_relax_roundtrip_witness :
    ((matchAll wr5 4 3).1.getD 0 ⟨0, [], none, []⟩).relaxations =
      (analyze ((matchAll wr5 4 3).1.getD 0
        ⟨0, [], none, []⟩).wrestlers).violations :=
  matchAll_relax_roundtrip wr5 4 3 _ (by decide)

/-- (C9)  Frame property: `match_all` reads the stored roster only
through a copy, so the matcher's `wrestlers` field is unchanged by the
call, and every wrestler appearing in the output (bracket members and
unmatched alike) is literally an element of the input roster — so no
wrestler record field (id, names, grade, weight, rank, school) is ever
altered; only bracket member lists are built and mutated. -/
theorem matchAll_frame (m : BracketMatcherV3) (nm : ℕ) :
    ((matchAllMethod m nm).1.wrestlers = m.wrestlers) ∧
    (∀ b ∈ (matchAllMethod m nm).2.1, ∀ w ∈ b.wrestlers,
      w ∈ m.wrestlers) ∧
    (∀ w ∈ (matchAllMethod m nm).2.2, w ∈ m.wrestlers) := by
  obtain ⟨st, hst, heq⟩ := matchAll_good m.wrestlers m.bracket_size nm
  have hout1 : (matchAllMethod m nm).2.1 = assignMats st.brackets nm := by
    show (matchAll m.wrestlers m.bracket_size nm).1 = _
    rw [heq]
  have hout2 : (matchAllMethod m nm).2.2 = st.available := by
    show (matchAll m.wrestlers m.bracket_size nm).2 = _
    rw [heq]
  refine ⟨rfl, ?_, ?_⟩
  · intro b hb w hw
    rw [hout1] at hb
    obtain ⟨b0, hb0, hweq, -⟩ := assignMats_mem_shape hb
    rw [hweq] at hw
    have hmem : w ∈ allMembers st.brackets := by
      simp only [allMembers, List.mem_flatMap]
      exact ⟨b0, hb0, hw⟩
    exact hst.perm.mem_iff.mp (List.mem_append.mpr (Or.inr hmem))
  · intro w hw
    rw [hout2] at hw
    exact hst.perm.mem_iff.mp (List.mem_append.mpr (Or.inl hw))

/-- (C9, witness) -/
theorem matchAll_frame_witness :
    ((matchAllMethod m5 3).1.wrestlers = m5.wrestlers) ∧
    (((matchAllMethod m5 3).2.1.getD 0
        ⟨0, [], none, []⟩).wrestlers.getD 0 defaultWrestler ∈
      m5.wrestlers) ∧
    ((matchAllMethod m5 3).2.2.getD 0 defaultWrestler ∈ m5.wrestlers) :=
  ⟨(matchAll_frame m5 3).1,
    (matchAll_frame m5 3).2.1
      ((matchAllMethod m5 3).2.1.getD 0 ⟨0, [], none, []⟩) (by decide)
      (((matchAllMethod m5 3).2.1.getD 0
        ⟨0, [], none, []⟩).wrestlers.getD 0 defaultWrestler) (by decide),
    (matchAll_frame m5 3).2.2
      ((matchAllMethod m5 3).2.2.getD 0 defaultWrestler) (by decide)⟩

theorem dedupFirst_aux (s : String) :
    ∀ (l acc : List String), (s ∈ acc ∨ s ∈ l) →
      s ∈ l.foldl (fun acc x => if x ∈ acc then acc else acc ++ [x]) acc := by
  intro l
  induction l with
  | nil =>
    intro acc h
    rcases h with h | h
    · exact h
    · simp at h
  | cons x xs ih =>
    intro acc h
    rw [List.foldl_cons]
    by_cases hx : x ∈ acc
    · rw [if_pos hx]
      refine ih acc ?_
      rcases h with h | h
      · exact Or.inl h
      · rcases List.mem_cons.mp h with h2 | h2
        · exact Or.inl (h2 ▸ hx)
        · exact Or.inr h2
    · rw [if_neg hx]
      refine ih (acc ++ [x]) ?_
      rcases h with h | h
      · exact Or.inl (List.mem_append.mpr (Or.inl h))
      · rcases List.mem_cons.mp h with h2 | h2
        · exact Or.inl (List.mem_append.mpr (Or.inr (by simp [h2])))
        · exact Or.inr h2

theorem mem_dedupFirst {s : String} {l : List String} (h : s ∈ l) :
    s ∈ dedupFirst l :=
  dedupFirst_aux s l [] (Or.inr h)

theorem foldl_max_le (xs : List ℕ) (x : ℕ) :
    x ≤ xs.foldl max x ∧ ∀ y ∈ xs, y ≤ xs.foldl max x := by
  induction xs generalizing x with
  | nil => simp
  | cons y ys ih =>
    obtain ⟨h1, h2⟩ := ih (max x y)
    rw [List.foldl_cons]
    refine ⟨le_trans (Nat.le_max_left x y) h1, ?_⟩
    intro z hz
    rcases List.mem_cons.mp hz with h | h
    · rw [h]
      exact le_trans (Nat.le_max_right x y) h1
    · exact h2 z h

theorem le_listMax {l : List ℕ} {x : ℕ} (h : x ∈ l) : x ≤ listMax 0 l := by
  cases l with
  | nil => simp at h
  | cons y ys =>
    obtain ⟨h1, h2⟩ := foldl_max_le ys y
    rcases List.mem_cons.mp h with h3 | h3
    · exact h3 ▸ h1
    · exact h2 x h3

theorem countSchool_all_same {g : List Wrestler} {s : String}
    (h : ∀ w ∈ g, w.school = s) : countSchool g s = g.length := by
  unfold countSchool
  rw [List.filter_eq_self.mpr]
  intro w hw
  simp [h w hw]

/-- In a group drawn entirely from one school, the maximum same-school
count is the whole group size. -/
theorem sameSchool_mss {g : List Wrestler} {s : String} (hne : g ≠ [])
    (h : ∀ w ∈ g, w.school = s) :
    g.length ≤ (analyze g).max_same_school := by
  have hsmem : s ∈ g.map (fun w => w.school) := by
    cases g with
    | nil => exact absurd rfl hne
    | cons w ws =>
      have := h w (List.mem_cons_self _ _)
      simp [← this]
  have hdmem : s ∈ dedupFirst (g.map (fun w => w.school)) :=
    mem_dedupFirst hsmem
  have hcmem : countSchool g s ∈
      (dedupFirst (g.map (fun w => w.school))).map (countSchool g) :=
    List.mem_map_of_mem _ hdmem
  have := le_listMax hcmem
  rw [countSchool_all_same h] at this
  exact this

/-- With two same-school wrestlers already in the group, no same-school
candidate is admissible at school cap 2. -/
theorem fpCandidates_sameSchool_nil {group cands : List Wrestler}
    {s : String} {maxW : Q} {maxG : ℤ}
    (hg : 2 ≤ group.length) (hgs : ∀ w ∈ group, w.school = s)
    (hcs : ∀ w ∈ cands, w.school = s) :
    fpCandidates group cands maxW maxG 2 = [] := by
  rw [fpCandidates, List.filterMap_eq_nil_iff]
  intro c hc
  have hmss : 3 ≤ (analyze (group ++ [c])).max_same_school := by
    have hall : ∀ w ∈ group ++ [c], w.school = s := by
      intro w hw
      rcases List.mem_append.mp hw with h | h
      · exact hgs w h
      · simp only [List.mem_singleton] at h
        exact h ▸ hcs c hc
    have := sameSchool_mss (by simp) hall
    simp only [List.length_append, List.length_singleton] at this
    omega
  show (if (analyze (group ++ [c])).weight_spread > maxW then none
    else if (analyze (group ++ [c])).grade_spread > maxG then none
    else if (analyze (group ++ [c])).max_same_school > 2 then none
    else some (c, fpScore group c (analyze (group ++ [c])))) = none
  split_ifs with h1 h2 h3
  · rfl
  · rfl
  · rfl
  · exact absurd hmss (by omega)

theorem findPartnersLoop_sameSchool_len {maxW : Q} {maxG : ℤ} {t : ℕ}
    {s : String} :
    ∀ (fuel : ℕ) (group cands : List Wrestler),
      (∀ w ∈ group, w.school = s) → (∀ w ∈ cands, w.school = s) →
      (findPartnersLoop t maxW maxG 2 fuel group cands).length ≤
        max 2 group.length := by
  intro fuel
  induction fuel with
  | zero =>
    intro group cands _ _
    simp [findPartnersLoop]
  | succ fuel ih =>
    intro group cands hgs hcs
    simp only [findPartnersLoop]
    split
    · by_cases h2 : 2 ≤ group.length
      · rw [fpCandidates_sameSchool_nil h2 hgs hcs]
        show group.length ≤ max 2 group.length
        omega
      · cases hsel : selectMinBy Prod.snd
            (fpCandidates group cands maxW maxG 2) with
        | none =>
          show group.length ≤ max 2 group.length
          omega
        | some p =>
          obtain ⟨best, sc⟩ := p
          have hbest : best ∈ cands :=
            (fpCandidates_mem (selectMinBy_mem _ hsel)).1
          have hlen := ih (group ++ [best]) (cands.erase best)
            (by
              intro w hw
              rcases List.mem_append.mp hw with h | h
              · exact hgs w h
              · simp only [List.mem_singleton] at h
                exact h ▸ hcs best hbest)
            (fun w hw => hcs w (List.mem_of_mem_erase hw))
          show (findPartnersLoop t maxW maxG 2 fuel (group ++ [best])
            (cands.erase best)).length ≤ max 2 group.length
          simp only [List.length_append, List.length_singleton] at hlen
          omega
    · show group.length ≤ max 2 group.length
      omega

theorem findPartners_sameSchool {seed : Wrestler} {pool : List Wrestler}
    {t : ℕ} {maxW : Q} {maxG : ℤ} {s : String}
    (ht : 3 ≤ t) (hpool : ∀ w ∈ pool, w.school = s)
    (hseed : seed.school = s) :
    findPartners seed pool t maxW maxG 2 = none := by
  unfold findPartners
  have hlen := @findPartnersLoop_sameSchool_len maxW maxG t s
    (pool.filter (fun w => w.id ≠ seed.id)).length [seed]
    (pool.filter (fun w => w.id ≠ seed.id))
    (by
      intro w hw
      simp only [List.mem_singleton] at hw
      exact hw ▸ hseed)
    (fun w hw => hpool w (List.mem_of_mem_filter hw))
  rw [if_neg]
  simp only [List.length_singleton] at hlen
  omega

theorem firstSome_eq_none {α β : Type} {f : α → Option β} {l : List α}
    (h : ∀ a ∈ l, f a = none) : firstSome f l = none := by
  induction l with
  | nil => rfl
  | cons x xs ih =>
    have hx := h x (List.mem_cons_self _ _)
    simp only [firstSome, hx]
    exact ih (fun a ha => h a (List.mem_cons_of_mem x ha))

theorem foldl_fixpoint {α β : Type} {f : α → β → α} {s : α}
    (h : ∀ b, f s b = s) : ∀ l : List β, l.foldl f s = s := by
  intro l
  induction l with
  | nil => rfl
  | cons x xs ih =>
    rw [List.foldl_cons, h x]
    exact ih

theorem findBestBracketIsolated_sameSchool {pool : List Wrestler} {t : ℕ}
    {maxW : Q} {maxG : ℤ} {s : String} (ht : 3 ≤ t)
    (hpool : ∀ w ∈ pool, w.school = s) :
    findBestBracketIsolated pool t maxW maxG 2 = none := by
  unfold findBestBracketIsolated
  refine firstSome_eq_none ?_
  intro seed hseed
  have hsp : seed ∈ pool := mem_sortByDesc _ hseed
  simp only [findPartners_sameSchool ht hpool (hpool seed hsp)]

theorem tryTolerances_sameSchool {seed : Wrestler} {avail : List Wrestler}
    {t : ℕ} {s : String} (ht : 3 ≤ t) (hav : ∀ w ∈ avail, w.school = s)
    (hseed : seed.school = s) : tryTolerances seed avail t = none := by
  refine firstSome_eq_none ?_
  intro p hp
  exact findPartners_sameSchool ht hav hseed

theorem phaseLoop_sameSchool {t' : ℕ} {maxW : Q} {maxG : ℤ} {s : String}
    {st : MState} (ht : 3 ≤ t') (hav : ∀ w ∈ st.available, w.school = s) :
    ∀ fuel, phaseLoop t' maxW maxG fuel st = st := by
  intro fuel
  cases fuel with
  | zero => rfl
  | succ fuel =>
    simp only [phaseLoop]
    split
    · simp only [findBestBracketIsolated_sameSchool ht hav]
    · rfl

theorem scan7_nil (t : ℕ) (avail : List Wrestler) :
    scan7 t avail [] = none := by
  unfold scan7 withIdx
  have hflat : avail.flatMap
      (fun _ => ([] : List (Wrestler × ℕ × Q))) = [] := by
    simp
  rw [show (avail.flatMap fun w =>
      List.filterMap _ ([] : List (ℕ × Bracket))) =
    avail.flatMap (fun _ => ([] : List (Wrestler × ℕ × Q))) from rfl, hflat]
  rfl

theorem phase7_nil {t : ℕ} {st : MState} (hb : st.brackets = []) :
    ∀ fuel, phase7 t fuel st = st := by
  intro fuel
  cases fuel with
  | zero => rfl
  | succ fuel => simp only [phase7, hb, scan7_nil]

theorem findDirect_nil (t : ℕ) (w : Wrestler) : findDirect t w [] = none :=
  rfl

theorem findBestSwap_nil (t : ℕ) (w : Wrestler) :
    findBestSwap t w [] = none := rfl

theorem phase8_fold_nil (t : ℕ) :
    ∀ (ws still : List Wrestler),
      ws.foldl (phase8Step t) ([], still) = ([], still ++ ws) := by
  intro ws
  induction ws with
  | nil => intro still; simp
  | cons w rest ih =>
    intro still
    rw [List.foldl_cons,
      phase8Step_none_def (findDirect_nil t w) (findBestSwap_nil t w), ih]
    simp

theorem phase8_nil {t : ℕ} {st : MState} (hb : st.brackets = []) :
    phase8 t st = st := by
  obtain ⟨av, bks, bid⟩ := st
  simp only at hb
  subst hb
  unfold phase8
  split
  · rfl
  · rw [show ((⟨av, [], bid⟩ : MState).brackets, ([] : List Wrestler)) =
      (([] : List Bracket), ([] : List Wrestler)) from rfl, phase8_fold_nil]
    simp

theorem matchAll_def (roster : List Wrestler) (bs nm : ℕ) :
    matchAll roster bs nm =
      (assignMats (phase8 bs (phase7 bs ((runPhases56 bs (max 3 (bs - 1))
          (runPhases14 bs (phase0 bs ⟨roster, [], 0⟩))).available.length + 1)
          (runPhases56 bs (max 3 (bs - 1)) (runPhases14 bs
            (phase0 bs ⟨roster, [], 0⟩))))).brackets nm,
        (phase8 bs (phase7 bs ((runPhases56 bs (max 3 (bs - 1))
          (runPhases14 bs (phase0 bs ⟨roster, [], 0⟩))).available.length + 1)
          (runPhases56 bs (max 3 (bs - 1)) (runPhases14 bs
            (phase0 bs ⟨roster, [], 0⟩))))).available) := rfl

/-- Any roster drawn entirely from one school is returned whole in the
unmatched list with no brackets at target size 4: the hard cap of at
most 2 per school makes every group of 3 or more inadmissible in every
phase. -/
theorem sameSchool_pipeline {s : String} {roster : List Wrestler} (nm : ℕ)
    (hav : ∀ w ∈ roster, w.school = s) :
    matchAll roster 4 nm = ([], roster) := by
  have hav' : ∀ w ∈ (⟨roster, [], 0⟩ : MState).available, w.school = s := hav
  have h0 : phase0 4 (⟨roster, [], 0⟩ : MState) = ⟨roster, [], 0⟩ := by
    unfold phase0
    refine foldl_fixpoint ?_ _
    intro seed
    split
    · rename_i hcond
      simp only [tryTolerances_sameSchool (show (3:ℕ) ≤ 4 by omega) hav'
        (hav' seed hcond.1)]
    · rfl
  have h14 : runPhases14 4 (⟨roster, [], 0⟩ : MState) = ⟨roster, [], 0⟩ := by
    unfold runPhases14
    simp only [phaseLoop_sameSchool (show (3:ℕ) ≤ 4 by omega) hav']
  have h56 : runPhases56 4 (max 3 (4 - 1)) (⟨roster, [], 0⟩ : MState) =
      ⟨roster, [], 0⟩ := by
    unfold runPhases56
    rw [if_pos (by omega)]
    simp only [phaseLoop_sameSchool
      (show (3:ℕ) ≤ max 3 (4 - 1) by omega) hav']
  have h7 : ∀ fuel, phase7 4 fuel (⟨roster, [], 0⟩ : MState) =
      ⟨roster, [], 0⟩ := phase7_nil rfl
  have h8 : phase8 4 (⟨roster, [], 0⟩ : MState) = ⟨roster, [], 0⟩ :=
    phase8_nil rfl
  rw [matchAll_def, h0, h14, h56, h7, h8]
  rfl

/-- (C3 counterexample) Four same-grade, same-school wrestlers with
weights well within every tolerance are NOT placed into one
SCHOOL-flagged bracket of 4: `match_all` returns no brackets at all and
leaves all four wrestlers unmatched, contradicting the claimed single
group with the SCHOOL flag. -/
theorem sameSchool_counterexample :
    (matchAll wrSame 4 3).1.length ≠ 1 ∧
      (matchAll wrSame 4 3).1 = [] ∧ (matchAll wrSame 4 3).2 = wrSame := by
  decide

/-- (C3 corrected) For every input of exactly 4 participants with the
same grade and the same school (target group size 4, weights within the
maximum weight tolerance), `match_all` produces NO group at all and
returns all 4 participants unmatched: the hard cap of at most 2 members
from one school (enforced in every phase, never relaxed) bars every
group of 3 or more drawn from a single school, so the SCHOOL flag can
never mark a group that exceeds the cap. -/
theorem sameSchool_matchAll (w1 w2 w3 w4 : Wrestler) (nm : ℕ)
    (hs2 : w2.school = w1.school) (hs3 : w3.school = w1.school)
    (hs4 : w4.school = w1.school) (hg2 : w2.grade = w1.grade)
    (hg3 : w3.grade = w1.grade) (hg4 : w4.grade = w1.grade)
    (hw : (analyze [w1, w2, w3, w4]).weight_spread ≤ 44) :
    matchAll [w1, w2, w3, w4] 4 nm = ([], [w1, w2, w3, w4]) := by
  refine sameSchool_pipeline (s := w1.school) nm ?_
  intro w hw'
  simp only [List.mem_cons, List.not_mem_nil, or_false] at hw'
  rcases hw' with h | h | h | h <;> subst h
  · rfl
  · exact hs2
  · exact hs3
  · exact hs4

/-- Witness for `sameSchool_matchAll` at the concrete one-school roster
`wrSame` with 3 mats. -/
theorem sameSchool_matchAll_witness :
    matchAll [wD1, wD2, wD3, wD4] 4 3 = ([], [wD1, wD2, wD3, wD4]) :=
  sameSchool_matchAll wD1 wD2 wD3 wD4 3 (by decide) (by decide) (by decide)
    (by decide) (by decide) (by decide) (by decide)

/-! ## C10: the round-robin polygon algorithm -/

theorem length_playersL (n : ℕ) : (playersL n).length = tot n := by
  unfold playersL tot
  split <;> simp

theorem playersL_eq (n : ℕ) :
    playersL n = (List.range (tot n)).map
      (fun i => if i < n then some i else none) := by
  unfold playersL tot
  by_cases hpar : n % 2 = 1
  · rw [if_pos hpar, if_pos hpar, List.range_succ, List.map_append]
    congr 1
    · refine List.map_congr_left ?_
      intro i hi
      rw [if_pos (List.mem_range.mp hi)]
    · simp
  · rw [if_neg hpar, if_neg hpar, List.append_nil]
    refine List.map_congr_left ?_
    intro i hi
    rw [if_pos (List.mem_range.mp hi)]

theorem rot0_eq (n : ℕ) (h : 2 ≤ n) :
    (playersL n).tail = (List.range (tot n - 1)).map (slotV n) := by
  have ht : tot n = (tot n - 1) + 1 := by unfold tot; split <;> omega
  rw [playersL_eq]
  nth_rewrite 1 [ht]
  rw [List.range_succ_eq_map, List.map_cons, List.tail_cons, List.map_map]
  refine List.map_congr_left ?_
  intro i _
  rfl

theorem length_playersL_tail (n : ℕ) (h : 2 ≤ n) :
    ((playersL n).tail).length = tot n - 1 := by
  rw [rot0_eq n h]
  simp

theorem getD_map_range {α : Type} (g : ℕ → α) (d : α) (N idx : ℕ) :
    ((List.range N).map g).getD idx d = if idx < N then g idx else d := by
  by_cases hi : idx < N
  · have hlen : idx < ((List.range N).map g).length := by simpa using hi
    rw [if_pos hi, List.getD_eq_getElem _ _ hlen, List.getElem_map,
      List.getElem_range]
  · rw [if_neg hi, List.getD_eq_default]
    simpa using Nat.le_of_not_lt hi

theorem headD_eq_getD {α : Type} (l : List α) (d : α) :
    l.headD d = l.getD 0 d := by
  cases l <;> rfl

theorem getD_rotate {α : Type} (l : List α) (b idx : ℕ) (d : α)
    (h : idx < l.length) :
    (l.rotate b).getD idx d = l.getD ((idx + b) % l.length) d := by
  have h1 : idx < (l.rotate b).length := by simpa using h
  have h2 : (idx + b) % l.length < l.length :=
    Nat.mod_lt _ (by omega)
  rw [List.getD_eq_getElem _ _ h1, List.getD_eq_getElem _ _ h2]
  exact List.getElem_rotate l b idx h1

theorem rotVal (n : ℕ) (h : 2 ≤ n) (b idx : ℕ) (hidx : idx < tot n - 1) :
    (((playersL n).tail).rotate b).getD idx none =
      slotV n ((idx + b) % (tot n - 1)) := by
  have hlen := length_playersL_tail n h
  have hidx' : idx < ((playersL n).tail).length := by omega
  rw [getD_rotate _ _ _ _ hidx', hlen, rot0_eq n h, getD_map_range,
    if_pos (Nat.mod_lt _ (by omega))]

theorem staggeredIdxPairs_eq (n : ℕ) (h : 2 ≤ n) :
    staggeredIdxPairs n =
      rrLoop (some 0) (tot n) (tot n - 1) ((playersL n).tail) := by
  have hhead : (playersL n).headD none = some 0 := by
    obtain ⟨k, rfl⟩ : ∃ k, n = k + 1 := ⟨n - 1, by omega⟩
    simp [playersL, List.range_succ_eq_map]
  show (if n < 2 then [] else
    rrLoop ((playersL n).headD none) (playersL n).length
      ((playersL n).length - 1) (playersL n).tail) = _
  rw [if_neg (by omega), hhead, length_playersL]

theorem rrLoop_rotate_eq (fx : Option ℕ) (total : ℕ)
    (rot : List (Option ℕ)) :
    ∀ (s a : ℕ), rrLoop fx total s (rot.rotate a) =
      (List.range s).flatMap
        (fun q => rrRound fx (rot.rotate (a + q * (rot.length - 1)))
          total) := by
  intro s
  induction s with
  | zero => intro a; rfl
  | succ s ih =>
    intro a
    rw [show rrLoop fx total (s + 1) (rot.rotate a) =
        rrRound fx (rot.rotate a) total ++
          rrLoop fx total s
            ((rot.rotate a).rotate ((rot.rotate a).length - 1)) from rfl]
    rw [List.length_rotate, List.rotate_rotate, ih (a + (rot.length - 1))]
    rw [List.range_succ_eq_map, List.flatMap_cons, List.flatMap_map]
    congr 1
    · simp
    · refine congrArg (List.range s).flatMap ?_
      funext q
      show rrRound fx
          (rot.rotate (a + (rot.length - 1) + q * (rot.length - 1)))
          total =
        rrRound fx (rot.rotate (a + (q + 1) * (rot.length - 1))) total
      have harith : a + (rot.length - 1) + q * (rot.length - 1) =
          a + (q + 1) * (rot.length - 1) := by ring
      rw [harith]

theorem staggeredIdxPairs_flat (n : ℕ) (h : 2 ≤ n) :
    staggeredIdxPairs n =
      (List.range (tot n - 1)).flatMap (roundList n) := by
  rw [staggeredIdxPairs_eq n h]
  nth_rewrite 1 [show (playersL n).tail = ((playersL n).tail).rotate 0 from
    (List.rotate_zero _).symm]
  rw [rrLoop_rotate_eq]
  refine congrArg (List.range (tot n - 1)).flatMap ?_
  funext q
  unfold roundList
  rw [Nat.zero_add, length_playersL_tail n h,
    show tot n - 1 - 1 = tot n - 2 from by omega]

theorem tot_facts (n : ℕ) (h : 2 ≤ n) :
    2 ≤ tot n ∧ tot n % 2 = 0 ∧ n ≤ tot n ∧ tot n ≤ n + 1 := by
  unfold tot
  split <;> omega

theorem count_filterMap {α β : Type} [BEq β] (f : α → Option β)
    (b : β) (l : List α) :
    (l.filterMap f).count b = l.countP (fun x => f x == some b) := by
  induction l with
  | nil => rfl
  | cons x xs ih =>
    rw [List.filterMap_cons, List.countP_cons]
    cases hx : f x with
    | none => simp [hx, ih]
    | some c =>
      rw [List.count_cons, ih]
      have hoc : ((some c : Option β) == some b) = (c == b) := rfl
      simp [hx, hoc]

theorem countP_eq_one_unique {α : Type} (p : α → Bool) :
    ∀ (l : List α), l.Nodup → ∀ x ∈ l, p x = true →
      (∀ y ∈ l, p y = true → y = x) → l.countP p = 1 := by
  intro l
  induction l with
  | nil => intro _ x hx; cases hx
  | cons a as ih =>
    intro hnd x hx hpx huniq
    rw [List.countP_cons]
    rcases List.mem_cons.mp hx with rfl | hxs
    · rw [if_pos hpx]
      have h0 : as.countP p = 0 := by
        rw [List.countP_eq_zero]
        intro y hy hpy
        have hyx := huniq y (List.mem_cons_of_mem _ hy) hpy
        subst hyx
        exact (List.nodup_cons.mp hnd).1 hy
      omega
    · have hax : ¬ p a = true := by
        intro hpa
        have hne := huniq a (List.mem_cons_self _ _) hpa
        subst hne
        exact (List.nodup_cons.mp hnd).1 hxs
      rw [if_neg hax, Nat.add_zero]
      exact ih (List.nodup_cons.mp hnd).2 x hxs hpx
        (fun y hy hpy => huniq y (List.mem_cons_of_mem _ hy) hpy)

theorem sum_map_range_eq_single (c : ℕ → ℕ) :
    ∀ (N q0 : ℕ), q0 < N → (∀ q < N, q ≠ q0 → c q = 0) →
      ((List.range N).map c).sum = c q0 := by
  intro N
  induction N with
  | zero => intro q0 hq; omega
  | succ N ih =>
    intro q0 hq hz
    rw [List.range_succ, List.map_append, List.sum_append]
    by_cases hN : q0 = N
    · have h0 : ((List.range N).map c).sum = 0 := by
        apply List.sum_eq_zero
        intro v hv
        obtain ⟨p, hp', rfl⟩ := List.mem_map.mp hv
        have hplt := List.mem_range.mp hp'
        exact hz p (by omega) (by omega)
      rw [h0, hN]
      simp
    · have hq' : q0 < N := by omega
      rw [ih q0 hq' (fun q hqN hne => hz q (by omega) hne)]
      have hcN : c N = 0 := hz N (by omega) (fun heq => hN heq.symm)
      simp [hcN]

theorem count_roundList (n : ℕ) (h : 2 ≤ n) (q : ℕ) (x : ℕ × ℕ) :
    (roundList n q).count x =
      (match slotV n ((0 + q * (tot n - 2)) % (tot n - 1)) with
        | some o => if (0, o) = x then 1 else 0
        | none => 0) +
      (List.range' 1 (tot n / 2 - 1)).countP (fun k =>
        slotV n ((k + q * (tot n - 2)) % (tot n - 1)) == some x.1 &&
        slotV n ((tot n - 1 - k + q * (tot n - 2)) % (tot n - 1)) ==
          some x.2) := by
  obtain ⟨ht2, htev, htn, htn1⟩ := tot_facts n h
  unfold roundList rrRound
  rw [List.count_append]
  congr 1
  · rw [headD_eq_getD, rotVal n h _ 0 (by omega)]
    cases hslot : slotV n ((0 + q * (tot n - 2)) % (tot n - 1)) with
    | none => rfl
    | some o => simp [List.count_singleton, beq_iff_eq]
  · rw [count_filterMap]
    refine List.countP_congr ?_
    intro k hk
    obtain ⟨hk1, hk2⟩ := List.mem_range'_1.mp hk
    have hb1 : k < tot n - 1 := by omega
    have hb2 : tot n - 1 - k < tot n - 1 := by omega
    simp only [List.length_rotate, length_playersL_tail n h]
    rw [rotVal n h _ k hb1, rotVal n h _ _ hb2]
    cases h1 : slotV n ((k + q * (tot n - 2)) % (tot n - 1)) with
    | none => simp
    | some a =>
      cases h2 : slotV n ((tot n - 1 - k + q * (tot n - 2)) %
          (tot n - 1)) with
      | none => simp
      | some c => simp [beq_iff_eq, Prod.ext_iff]

theorem slotV_eq_some_iff (n v w : ℕ) :
    slotV n v = some w ↔ v + 1 = w ∧ w < n := by
  unfold slotV
  split
  · rename_i hv
    simp only [Option.some.injEq]
    constructor
    · intro he; omega
    · intro hc; omega
  · rename_i hv
    constructor
    · intro he; cases he
    · rintro ⟨h1, h2⟩; omega

theorem mod_eq_iff_int (L x c : ℕ) (hc : c < L) :
    x % L = c ↔ Int.ModEq (L : ℤ) (x : ℤ) (c : ℤ) := by
  have hcL : ((c : ℤ)) % (L : ℤ) = (c : ℤ) :=
    Int.emod_eq_of_lt (Int.natCast_nonneg c) (by exact_mod_cast hc)
  constructor
  · intro hx
    show (x : ℤ) % L = (c : ℤ) % L
    rw [hcL, ← Int.natCast_mod, hx]
  · intro hx
    have h1 : ((x % L : ℕ) : ℤ) = (c : ℤ) := by
      rw [Int.natCast_mod]
      show (x : ℤ) % L = (c : ℤ)
      rw [← hcL]
      exact hx
    exact_mod_cast h1

theorem modeq_mod_self (T : ℕ) (x : ℤ) :
    Int.ModEq (T : ℤ) (x % (T : ℤ)) x := by
  show _ % _ = _ % _
  rw [Int.emod_emod_of_dvd _ dvd_rfl]

theorem sigma_bridge (T k q c : ℕ) (hT : 0 < T) (hc : c < T) :
    (k + q * (T - 1)) % T = c ↔
      Int.ModEq (T : ℤ) ((k : ℤ) - (q : ℤ)) (c : ℤ) := by
  rw [mod_eq_iff_int T _ c hc]
  have hcast : ((k + q * (T - 1) : ℕ) : ℤ) =
      (k : ℤ) + (q : ℤ) * ((T : ℤ) - 1) := by
    push_cast [Nat.cast_sub (by omega : 1 ≤ T)]
    ring
  have hme : Int.ModEq (T : ℤ) ((k : ℤ) + (q : ℤ) * ((T : ℤ) - 1))
      ((k : ℤ) - (q : ℤ)) := by
    show _ % _ = _ % _
    have he : (k : ℤ) + (q : ℤ) * ((T : ℤ) - 1) =
        ((k : ℤ) - (q : ℤ)) + (T : ℤ) * (q : ℤ) := by ring
    rw [he, Int.add_mul_emod_self_left]
  rw [hcast]
  constructor
  · intro hx; exact hme.symm.trans hx
  · intro hx; exact hme.trans hx

theorem modeq_cancel_two (T : ℕ) (hodd : T % 2 = 1) (a b : ℤ)
    (h : Int.ModEq (T : ℤ) (2 * a) (2 * b)) : Int.ModEq (T : ℤ) a b := by
  have hd : (T : ℤ) ∣ 2 * b - 2 * a := Int.ModEq.dvd h
  have hc : IsCoprime ((T : ℤ)) (2 : ℤ) := by
    rw [Int.isCoprime_iff_gcd_eq_one]
    rw [show (2 : ℤ) = ((2 : ℕ) : ℤ) from rfl, Int.gcd_natCast_natCast]
    exact Nat.coprime_two_right.mpr (Nat.odd_iff.mpr hodd)
  have h2 : (T : ℤ) ∣ 2 * (b - a) := by
    have he : 2 * b - 2 * a = 2 * (b - a) := by ring
    rwa [he] at hd
  exact Int.modEq_iff_dvd.mpr (hc.dvd_of_dvd_mul_left h2)

theorem modeq_nat_inj (T a b : ℕ) (ha : a < T) (hb : b < T)
    (h : Int.ModEq (T : ℤ) (a : ℤ) (b : ℤ)) : a = b := by
  have h1 : (a : ℤ) % T = (b : ℤ) % T := h
  rw [Int.emod_eq_of_lt (Int.natCast_nonneg a) (by exact_mod_cast ha),
      Int.emod_eq_of_lt (Int.natCast_nonneg b) (by exact_mod_cast hb)] at h1
  exact_mod_cast h1

theorem exists_double_inverse (T m : ℕ) (hm : 2 * m = T + 1) (y : ℕ) :
    Int.ModEq (T : ℤ) (2 * (((y * m) % T : ℕ) : ℤ)) (y : ℤ) := by
  have h1 : Int.ModEq (T : ℤ) (((y * m) % T : ℕ) : ℤ) ((y * m : ℕ) : ℤ) := by
    rw [Int.natCast_mod]
    exact modeq_mod_self T _
  refine (h1.mul_left 2).trans ?_
  show _ % _ = _ % _
  push_cast
  have he : 2 * ((y : ℤ) * m) = (y : ℤ) + (T : ℤ) * y := by
    have hmz : (2 : ℤ) * (m : ℤ) = (T : ℤ) + 1 := by exact_mod_cast hm
    calc 2 * ((y : ℤ) * m) = (2 * (m : ℤ)) * y := by ring
    _ = ((T : ℤ) + 1) * y := by rw [hmz]
    _ = (y : ℤ) + (T : ℤ) * y := by ring
  rw [he, Int.add_mul_emod_self_left]

theorem unique_q_two (T m s : ℕ) (hm : 2 * m = T + 1) (hs : s < 2 * T) :
    ((2 * T - s) * m) % T < T ∧
    Int.ModEq (T : ℤ) (2 * ((((2 * T - s) * m) % T : ℕ) : ℤ) + s) 0 ∧
    (∀ q, q < T → Int.ModEq (T : ℤ) (2 * (q : ℤ) + s) 0 →
      q = ((2 * T - s) * m) % T) := by
  have hT : 0 < T := by omega
  have hodd : T % 2 = 1 := by omega
  have hq0 : Int.ModEq (T : ℤ)
      (2 * ((((2 * T - s) * m) % T : ℕ) : ℤ) + s) 0 := by
    have h1 := exists_double_inverse T m hm (2 * T - s)
    have h2 : Int.ModEq (T : ℤ) ((2 * T - s : ℕ) : ℤ) (0 - (s : ℤ)) := by
      rw [Nat.cast_sub (by omega)]
      show _ % _ = _ % _
      have he : (2 * T : ℕ) - (s : ℤ) = (0 - (s : ℤ)) + (T : ℤ) * 2 := by
        push_cast
        ring
      rw [he, Int.add_mul_emod_self_left]
    have h4 := (h1.trans h2).add_right (s : ℤ)
    simpa using h4
  refine ⟨Nat.mod_lt _ hT, hq0, ?_⟩
  intro q hq hqe
  have h2q : Int.ModEq (T : ℤ) (2 * (q : ℤ))
      (2 * ((((2 * T - s) * m) % T : ℕ) : ℤ)) := by
    have hsub := (hqe.trans hq0.symm).sub_right (s : ℤ)
    simpa using hsub
  exact modeq_nat_inj T q _ hq (Nat.mod_lt _ hT)
    (modeq_cancel_two T hodd _ _ h2q)

theorem unique_q_neg (T m β : ℕ) (hm : 2 * m = T + 1) (hβ : β < T) :
    (T - β) % T < T ∧
    Int.ModEq (T : ℤ) (0 - (((T - β) % T : ℕ) : ℤ)) (β : ℤ) ∧
    (∀ q, q < T → Int.ModEq (T : ℤ) (0 - (q : ℤ)) (β : ℤ) →
      q = (T - β) % T) := by
  have hT : 0 < T := by omega
  have hq0 : Int.ModEq (T : ℤ) (0 - (((T - β) % T : ℕ) : ℤ)) (β : ℤ) := by
    have h1 : Int.ModEq (T : ℤ) (((T - β) % T : ℕ) : ℤ)
        ((T : ℤ) - (β : ℤ)) := by
      rw [Int.natCast_mod, Nat.cast_sub (le_of_lt hβ)]
      exact modeq_mod_self T _
    have h2 := h1.neg
    have h3 : Int.ModEq (T : ℤ) (-((T : ℤ) - (β : ℤ))) (β : ℤ) := by
      show _ % _ = _ % _
      have he : -((T : ℤ) - (β : ℤ)) = (β : ℤ) + (T : ℤ) * (-1) := by ring
      rw [he, Int.add_mul_emod_self_left]
    have h4 := h2.trans h3
    simpa [zero_sub] using h4
  refine ⟨Nat.mod_lt _ hT, hq0, ?_⟩
  intro q hq hqe
  have hneg : Int.ModEq (T : ℤ) ((q : ℤ)) ((((T - β) % T : ℕ) : ℤ)) := by
    have := (hqe.trans hq0.symm).neg
    simpa [zero_sub] using this
  exact modeq_nat_inj T q _ hq (Nat.mod_lt _ hT) hneg

theorem bridge' (n : ℕ) (h : 2 ≤ n) (k q c : ℕ) (hc : c < tot n - 1) :
    (k + q * (tot n - 2)) % (tot n - 1) = c ↔
      Int.ModEq ((tot n - 1 : ℕ) : ℤ) ((k : ℤ) - (q : ℤ)) (c : ℤ) := by
  obtain ⟨ht2, htev, htn, htn1⟩ := tot_facts n h
  rw [show tot n - 2 = (tot n - 1) - 1 from by omega]
  exact sigma_bridge (tot n - 1) k q c (by omega) hc

theorem roundList_count_pos (n q i j : ℕ) (h : 2 ≤ n) (hi : 0 < i)
    (hin : i < n) (hj : 0 < j) (hjn : j < n) :
    (roundList n q).count (i, j) =
      (List.range' 1 (tot n / 2 - 1)).countP (fun k =>
        decide ((k + q * (tot n - 2)) % (tot n - 1) = i - 1) &&
        decide ((tot n - 1 - k + q * (tot n - 2)) % (tot n - 1) = j - 1))
    := by
  rw [count_roundList n h q (i, j)]
  dsimp only
  have hhead : (match slotV n ((0 + q * (tot n - 2)) % (tot n - 1)) with
      | some o => if (0, o) = (i, j) then 1 else 0
      | none => 0) = 0 := by
    cases hs : slotV n ((0 + q * (tot n - 2)) % (tot n - 1)) with
    | none => rfl
    | some o =>
      show (if (0, o) = (i, j) then 1 else 0) = 0
      rw [if_neg]
      intro he
      rw [Prod.mk.injEq] at he
      omega
  rw [hhead, Nat.zero_add]
  refine List.countP_congr ?_
  intro k hk
  simp only [Bool.and_eq_true, beq_iff_eq, decide_eq_true_eq]
  rw [slotV_eq_some_iff, slotV_eq_some_iff]
  constructor
  · rintro ⟨⟨h1, _⟩, ⟨h2, _⟩⟩
    exact ⟨by omega, by omega⟩
  · rintro ⟨h1, h2⟩
    exact ⟨⟨by omega, hin⟩, ⟨by omega, hjn⟩⟩

theorem roundList_count_zero_fst (n q j : ℕ) (h : 2 ≤ n) (hj : 0 < j)
    (hjn : j < n) :
    (roundList n q).count (0, j) =
      if (0 + q * (tot n - 2)) % (tot n - 1) = j - 1 then 1 else 0 := by
  rw [count_roundList n h q (0, j)]
  dsimp only
  have hkp : (List.range' 1 (tot n / 2 - 1)).countP (fun k =>
      slotV n ((k + q * (tot n - 2)) % (tot n - 1)) == some 0 &&
      slotV n ((tot n - 1 - k + q * (tot n - 2)) % (tot n - 1)) ==
        some j) = 0 := by
    rw [List.countP_eq_zero]
    intro k hk hcon
    rw [Bool.and_eq_true, beq_iff_eq, beq_iff_eq] at hcon
    obtain ⟨h1, _⟩ := hcon
    rw [slotV_eq_some_iff] at h1
    omega
  rw [hkp, Nat.add_zero]
  cases hs : slotV n ((0 + q * (tot n - 2)) % (tot n - 1)) with
  | none =>
    rw [if_neg]
    intro hc
    have hsome : slotV n ((0 + q * (tot n - 2)) % (tot n - 1)) = some j := by
      rw [slotV_eq_some_iff]
      omega
    rw [hsome] at hs
    cases hs
  | some o =>
    obtain ⟨hvo, hon⟩ := (slotV_eq_some_iff n _ o).mp hs
    show (if (0, o) = ((0 : ℕ), j) then 1 else 0) = _
    by_cases hoj : o = j
    · rw [if_pos (by rw [hoj]), if_pos (by omega)]
    · rw [if_neg (by simp [Prod.ext_iff, hoj]), if_neg (by omega)]

theorem roundList_count_snd_zero (n q j : ℕ) (h : 2 ≤ n) (hj : 0 < j) :
    (roundList n q).count (j, 0) = 0 := by
  rw [count_roundList n h q (j, 0)]
  dsimp only
  have hhead : (match slotV n ((0 + q * (tot n - 2)) % (tot n - 1)) with
      | some o => if (0, o) = (j, 0) then 1 else 0
      | none => 0) = 0 := by
    cases hs : slotV n ((0 + q * (tot n - 2)) % (tot n - 1)) with
    | none => rfl
    | some o =>
      show (if (0, o) = (j, 0) then 1 else 0) = 0
      rw [if_neg]
      intro he
      rw [Prod.mk.injEq] at he
      omega
  have hkp : (List.range' 1 (tot n / 2 - 1)).countP (fun k =>
      slotV n ((k + q * (tot n - 2)) % (tot n - 1)) == some j &&
      slotV n ((tot n - 1 - k + q * (tot n - 2)) % (tot n - 1)) ==
        some 0) = 0 := by
    rw [List.countP_eq_zero]
    intro k hk hcon
    rw [Bool.and_eq_true, beq_iff_eq, beq_iff_eq] at hcon
    obtain ⟨_, h2⟩ := hcon
    rw [slotV_eq_some_iff] at h2
    omega
  rw [hhead, hkp]

theorem kappa_mod (n c q0 : ℕ) :
    Int.ModEq ((tot n - 1 : ℕ) : ℤ)
      (((c + q0) % (tot n - 1) : ℕ) : ℤ) ((c : ℤ) + (q0 : ℤ)) := by
  have h0 := modeq_mod_self (tot n - 1) ((c + q0 : ℕ) : ℤ)
  rw [Int.natCast_mod]
  push_cast at h0 ⊢
  exact h0

theorem kappa_facts (n q0 i j : ℕ) (h : 2 ≤ n) (hi : 0 < i) (hin : i < n)
    (hj : 0 < j) (hjn : j < n) (hij : i ≠ j) (hq0lt : q0 < tot n - 1)
    (hsum : Int.ModEq ((tot n - 1 : ℕ) : ℤ)
      (2 * (q0 : ℤ) + (((i - 1) + (j - 1) : ℕ) : ℤ)) 0) :
    ((i - 1) + q0) % (tot n - 1) ≠ 0 ∧
    ((j - 1) + q0) % (tot n - 1) =
      (tot n - 1) - ((i - 1) + q0) % (tot n - 1) := by
  obtain ⟨ht2, htev, htn, htn1⟩ := tot_facts n h
  have hT1 : 1 ≤ tot n - 1 := by omega
  obtain ⟨c2, hc2⟩ := Int.ModEq.dvd hsum
  push_cast at hc2
  obtain ⟨cka, hcka⟩ := Int.ModEq.dvd (kappa_mod n (i - 1) q0)
  obtain ⟨ckb, hckb⟩ := Int.ModEq.dvd (kappa_mod n (j - 1) q0)
  have hk1lt : ((i - 1) + q0) % (tot n - 1) < tot n - 1 :=
    Nat.mod_lt _ (by omega)
  have hk2lt : ((j - 1) + q0) % (tot n - 1) < tot n - 1 :=
    Nat.mod_lt _ (by omega)
  have hknz : ((i - 1) + q0) % (tot n - 1) ≠ 0 := by
    intro hk0
    rw [hk0] at hcka
    have hAB : Int.ModEq ((tot n - 1 : ℕ) : ℤ) ((i - 1 : ℕ) : ℤ)
        ((j - 1 : ℕ) : ℤ) := by
      rw [Int.modEq_iff_dvd]
      refine ⟨-(2 * cka + c2), ?_⟩
      push_cast at hcka ⊢
      linear_combination (-2) * hcka + (-1) * hc2
    have := modeq_nat_inj (tot n - 1) (i - 1) (j - 1) (by omega) (by omega)
      hAB
    omega
  refine ⟨hknz, ?_⟩
  have hcastTk : ((tot n - 1 - ((i - 1) + q0) % (tot n - 1) : ℕ) : ℤ) =
      ((tot n - 1 : ℕ) : ℤ) - ((((i - 1) + q0) % (tot n - 1) : ℕ) : ℤ) :=
    Nat.cast_sub (le_of_lt hk1lt)
  refine modeq_nat_inj (tot n - 1) _ _ hk2lt (by omega) ?_
  rw [Int.modEq_iff_dvd, hcastTk]
  refine ⟨cka + ckb + c2 + 1, ?_⟩
  linear_combination hcka + hckb + hc2

theorem countP_round_eval (n q0 i j : ℕ) (h : 2 ≤ n) (hi : 0 < i)
    (hin : i < n) (hj : 0 < j) (hjn : j < n) (hij : i ≠ j)
    (hq0lt : q0 < tot n - 1)
    (hsum : Int.ModEq ((tot n - 1 : ℕ) : ℤ)
      (2 * (q0 : ℤ) + (((i - 1) + (j - 1) : ℕ) : ℤ)) 0) :
    (roundList n q0).count (i, j) =
      if ((i - 1) + q0) % (tot n - 1) < tot n / 2 then 1 else 0 := by
  obtain ⟨ht2, htev, htn, htn1⟩ := tot_facts n h
  have hT1 : 1 ≤ tot n - 1 := by omega
  have hm1 : 1 ≤ tot n / 2 := by omega
  have hmT : tot n / 2 ≤ tot n - 1 := by omega
  obtain ⟨hknz, _⟩ :=
    kappa_facts n q0 i j h hi hin hj hjn hij hq0lt hsum
  obtain ⟨c2, hc2⟩ := Int.ModEq.dvd hsum
  push_cast at hc2
  obtain ⟨cka, hcka⟩ := Int.ModEq.dvd (kappa_mod n (i - 1) q0)
  have hk1lt : ((i - 1) + q0) % (tot n - 1) < tot n - 1 :=
    Nat.mod_lt _ (by omega)
  have hiT : i - 1 < tot n - 1 := by omega
  have hjT : j - 1 < tot n - 1 := by omega
  rw [roundList_count_pos n q0 i j h hi hin hj hjn]
  by_cases hkm : ((i - 1) + q0) % (tot n - 1) < tot n / 2
  · rw [if_pos hkm]
    refine countP_eq_one_unique _ _ (List.nodup_range' _ _)
      (((i - 1) + q0) % (tot n - 1)) ?_ ?_ ?_
    · rw [List.mem_range'_1]
      omega
    · rw [Bool.and_eq_true, decide_eq_true_eq, decide_eq_true_eq]
      constructor
      · rw [bridge' n h _ q0 (i - 1) hiT, Int.modEq_iff_dvd]
        exact ⟨cka, by linear_combination hcka⟩
      · rw [bridge' n h _ q0 (j - 1) hjT, Int.modEq_iff_dvd]
        have hcast : ((tot n - 1 - ((i - 1) + q0) % (tot n - 1) : ℕ) : ℤ) =
            ((tot n - 1 : ℕ) : ℤ) -
              ((((i - 1) + q0) % (tot n - 1) : ℕ) : ℤ) :=
          Nat.cast_sub (le_of_lt hk1lt)
        rw [hcast]
        exact ⟨-(cka + c2 + 1), by linear_combination (-1) * hcka +
          (-1) * hc2⟩
    · intro y hy hpy
      rw [Bool.and_eq_true, decide_eq_true_eq, decide_eq_true_eq] at hpy
      obtain ⟨hy1, _⟩ := hpy
      obtain ⟨hylo, hyhi⟩ := List.mem_range'_1.mp hy
      have hmy := (bridge' n h y q0 (i - 1) hiT).mp hy1
      obtain ⟨dy, hdy⟩ := Int.ModEq.dvd hmy
      refine modeq_nat_inj (tot n - 1) y _ (by omega) hk1lt ?_
      rw [Int.modEq_iff_dvd]
      exact ⟨dy - cka, by linear_combination hdy + (-1) * hcka⟩
  · rw [if_neg hkm]
    rw [List.countP_eq_zero]
    intro k hk hcon
    rw [Bool.and_eq_true, decide_eq_true_eq, decide_eq_true_eq] at hcon
    obtain ⟨h1, _⟩ := hcon
    obtain ⟨hklo, hkhi⟩ := List.mem_range'_1.mp hk
    have hmk := (bridge' n h k q0 (i - 1) hiT).mp h1
    obtain ⟨dk, hdk⟩ := Int.ModEq.dvd hmk
    have hkeq : k = ((i - 1) + q0) % (tot n - 1) := by
      refine modeq_nat_inj (tot n - 1) k _ (by omega) hk1lt ?_
      rw [Int.modEq_iff_dvd]
      exact ⟨dk - cka, by linear_combination hdk + (-1) * hcka⟩
    omega

theorem countP_round_zero (n q i j : ℕ) (h : 2 ≤ n) (hi : 0 < i)
    (hin : i < n) (hj : 0 < j) (hjn : j < n)
    (hnsum : ¬ Int.ModEq ((tot n - 1 : ℕ) : ℤ)
      (2 * (q : ℤ) + (((i - 1) + (j - 1) : ℕ) : ℤ)) 0) :
    (roundList n q).count (i, j) = 0 := by
  obtain ⟨ht2, htev, htn, htn1⟩ := tot_facts n h
  rw [roundList_count_pos n q i j h hi hin hj hjn, List.countP_eq_zero]
  intro k hk hcon
  rw [Bool.and_eq_true, decide_eq_true_eq, decide_eq_true_eq] at hcon
  obtain ⟨h1, h2⟩ := hcon
  obtain ⟨hk1, hk2⟩ := List.mem_range'_1.mp hk
  have hiT : i - 1 < tot n - 1 := by omega
  have hjT : j - 1 < tot n - 1 := by omega
  have hkT : k < tot n - 1 := by omega
  have hm1 := (bridge' n h k q (i - 1) hiT).mp h1
  have hm2 := (bridge' n h (tot n - 1 - k) q (j - 1) hjT).mp h2
  obtain ⟨d1, hd1⟩ := Int.ModEq.dvd hm1
  obtain ⟨d2, hd2⟩ := Int.ModEq.dvd hm2
  refine hnsum ?_
  rw [Int.modEq_iff_dvd]
  have hTk : ((tot n - 1 - k : ℕ) : ℤ) = ((tot n - 1 : ℕ) : ℤ) - (k : ℤ) :=
    Nat.cast_sub (by omega)
  rw [hTk] at hd2
  refine ⟨-(d1 + d2 + 1), ?_⟩
  push_cast
  linear_combination (-1) * hd1 + (-1) * hd2

theorem staggered_sum_zero (n j : ℕ) (h : 2 ≤ n) (hj : 0 < j)
    (hjn : j < n) :
    ((List.range (tot n - 1)).map
      (fun q => (roundList n q).count (0, j))).sum = 1 := by
  obtain ⟨ht2, htev, htn, htn1⟩ := tot_facts n h
  have hm2 : 2 * (tot n / 2) = (tot n - 1) + 1 := by omega
  have hβ : j - 1 < tot n - 1 := by omega
  obtain ⟨hq0lt, hq0, huniq⟩ :=
    unique_q_neg (tot n - 1) (tot n / 2) (j - 1) hm2 hβ
  rw [List.map_congr_left
    (fun q _ => roundList_count_zero_fst n q j h hj hjn)]
  rw [sum_map_range_eq_single _ _ ((tot n - 1 - (j - 1)) % (tot n - 1))
    hq0lt ?_]
  · rw [if_pos]
    rw [bridge' n h 0 _ (j - 1) hβ]
    simpa using hq0
  · intro q hq hne
    rw [if_neg]
    intro hc
    have hmc := (bridge' n h 0 q (j - 1) hβ).mp hc
    exact hne (huniq q hq (by simpa using hmc))

theorem staggered_sum_zero_rev (n j : ℕ) (h : 2 ≤ n) (hj : 0 < j) :
    ((List.range (tot n - 1)).map
      (fun q => (roundList n q).count (j, 0))).sum = 0 := by
  rw [List.map_congr_left
    (fun q _ => roundList_count_snd_zero n q j h hj)]
  simp

theorem staggered_sum_pos (n i j : ℕ) (h : 2 ≤ n) (hi : 0 < i)
    (hij : i < j) (hjn : j < n) :
    ((List.range (tot n - 1)).map
        (fun q => (roundList n q).count (i, j))).sum +
      ((List.range (tot n - 1)).map
        (fun q => (roundList n q).count (j, i))).sum = 1 := by
  obtain ⟨ht2, htev, htn, htn1⟩ := tot_facts n h
  have hm2 : 2 * (tot n / 2) = (tot n - 1) + 1 := by omega
  have hs : (i - 1) + (j - 1) < 2 * (tot n - 1) := by omega
  obtain ⟨hq0lt, hq0, huniq⟩ :=
    unique_q_two (tot n - 1) (tot n / 2) ((i - 1) + (j - 1)) hm2 hs
  have hq0' : Int.ModEq ((tot n - 1 : ℕ) : ℤ)
      (2 * (((2 * (tot n - 1) - ((i - 1) + (j - 1))) * (tot n / 2) %
        (tot n - 1) : ℕ) : ℤ) + (((j - 1) + (i - 1) : ℕ) : ℤ)) 0 := by
    rw [Nat.add_comm (j - 1) (i - 1)]
    exact hq0
  have hsum1 : ((List.range (tot n - 1)).map
      (fun q => (roundList n q).count (i, j))).sum =
      (roundList n ((2 * (tot n - 1) - ((i - 1) + (j - 1))) * (tot n / 2) %
        (tot n - 1))).count (i, j) := by
    refine sum_map_range_eq_single _ _ _ hq0lt ?_
    intro q hq hne
    refine countP_round_zero n q i j h hi (by omega) (by omega) hjn ?_
    intro hcon
    exact hne (huniq q hq hcon)
  have hsum2 : ((List.range (tot n - 1)).map
      (fun q => (roundList n q).count (j, i))).sum =
      (roundList n ((2 * (tot n - 1) - ((i - 1) + (j - 1))) * (tot n / 2) %
        (tot n - 1))).count (j, i) := by
    refine sum_map_range_eq_single _ _ _ hq0lt ?_
    intro q hq hne
    refine countP_round_zero n q j i h (by omega) hjn hi (by omega) ?_
    intro hcon
    rw [Nat.add_comm (j - 1) (i - 1)] at hcon
    exact hne (huniq q hq hcon)
  rw [hsum1, hsum2]
  rw [countP_round_eval n _ i j h hi (by omega) (by omega) hjn (by omega)
    hq0lt hq0]
  rw [countP_round_eval n _ j i h (by omega) hjn hi (by omega) (by omega)
    hq0lt hq0']
  obtain ⟨hknz, hkrev⟩ := kappa_facts n _ i j h hi (by omega) (by omega)
    hjn (by omega) hq0lt hq0
  rw [hkrev]
  have hk1lt : ((i - 1) +
      (2 * (tot n - 1) - ((i - 1) + (j - 1))) * (tot n / 2) %
        (tot n - 1)) % (tot n - 1) < tot n - 1 := Nat.mod_lt _ (by omega)
  split_ifs <;> omega

theorem staggered_count (n i j : ℕ) (h : 2 ≤ n) (hij : i < j)
    (hjn : j < n) :
    (staggeredIdxPairs n).count (i, j) +
      (staggeredIdxPairs n).count (j, i) = 1 := by
  rw [staggeredIdxPairs_flat n h, List.count_flatMap, List.count_flatMap]
  show ((List.range (tot n - 1)).map
      (fun q => (roundList n q).count (i, j))).sum +
    ((List.range (tot n - 1)).map
      (fun q => (roundList n q).count (j, i))).sum = 1
  by_cases hi0 : i = 0
  · subst hi0
    rw [staggered_sum_zero n j h (by omega) hjn,
      staggered_sum_zero_rev n j h (by omega)]
  · exact staggered_sum_pos n i j h (by omega) hij hjn

theorem staggered_pairs_mem (n : ℕ) (h : 2 ≤ n) :
    ∀ x ∈ staggeredIdxPairs n, x.1 < n ∧ x.2 < n ∧ ¬ x.1 = x.2 := by
  obtain ⟨ht2, htev, htn, htn1⟩ := tot_facts n h
  rw [staggeredIdxPairs_flat n h]
  intro x hx
  obtain ⟨q, hq, hxr⟩ := List.mem_flatMap.mp hx
  unfold roundList rrRound at hxr
  rw [List.mem_append] at hxr
  rcases hxr with hh | hkp
  · rw [headD_eq_getD, rotVal n h _ 0 (by omega)] at hh
    cases hs : slotV n ((0 + q * (tot n - 2)) % (tot n - 1)) with
    | none =>
      rw [hs] at hh
      cases hh
    | some o =>
      rw [hs] at hh
      have hh' : x ∈ [((0 : ℕ), o)] := hh
      have hxo : x = (0, o) := by simpa using hh'
      obtain ⟨hvo, hon⟩ := (slotV_eq_some_iff n _ o).mp hs
      subst hxo
      refine ⟨by omega, hon, by simp; omega⟩
  · obtain ⟨k, hk, hfk⟩ := List.mem_filterMap.mp hkp
    obtain ⟨hk1, hk2⟩ := List.mem_range'_1.mp hk
    have hm1 : 1 ≤ tot n / 2 := by omega
    have hb1 : k < tot n - 1 := by omega
    have hb2 : tot n - 1 - k < tot n - 1 := by omega
    rw [List.length_rotate, length_playersL_tail n h] at hfk
    rw [rotVal n h _ k hb1, rotVal n h _ _ hb2] at hfk
    cases h1 : slotV n ((k + q * (tot n - 2)) % (tot n - 1)) with
    | none =>
      rw [h1] at hfk
      cases hfk
    | some a =>
      cases h2 : slotV n ((tot n - 1 - k + q * (tot n - 2)) %
          (tot n - 1)) with
      | none =>
        rw [h1, h2] at hfk
        cases hfk
      | some b =>
        rw [h1, h2] at hfk
        have hfk' : some (a, b) = some x := hfk
        have hxab : x = (a, b) := by
          simpa using hfk'.symm
        obtain ⟨hva, han⟩ := (slotV_eq_some_iff n _ a).mp h1
        obtain ⟨hvb, hbn⟩ := (slotV_eq_some_iff n _ b).mp h2
        subst hxab
        refine ⟨han, hbn, ?_⟩
        show ¬ a = b
        intro hab
        have hvv : (k + q * (tot n - 2)) % (tot n - 1) =
            (tot n - 1 - k + q * (tot n - 2)) % (tot n - 1) := by
          omega
        have hcT : (tot n - 1 - k + q * (tot n - 2)) % (tot n - 1) <
            tot n - 1 := Nat.mod_lt _ (by omega)
        have hA := (bridge' n h k q _ hcT).mp hvv
        have hB := (bridge' n h (tot n - 1 - k) q _ hcT).mp rfl
        have hAB := hA.trans hB.symm
        have hcastTk : ((tot n - 1 - k : ℕ) : ℤ) =
            ((tot n - 1 : ℕ) : ℤ) - (k : ℤ) := Nat.cast_sub (by omega)
        rw [hcastTk] at hAB
        obtain ⟨e, he⟩ := Int.ModEq.dvd hAB
        have h2k : Int.ModEq ((tot n - 1 : ℕ) : ℤ) (2 * (k : ℤ))
            (2 * 0) := by
          rw [Int.modEq_iff_dvd]
          exact ⟨e - 1, by linear_combination he⟩
        have hk0 : k = 0 := by
          refine modeq_nat_inj (tot n - 1) k 0 (by omega) (by omega) ?_
          have := modeq_cancel_two (tot n - 1) (by omega) _ _ h2k
          exact_mod_cast this
        omega

theorem length_eq_sum_count {α : Type} [DecidableEq α] [BEq α]
    [LawfulBEq α] (F : Finset α) :
    ∀ l : List α, (∀ x ∈ l, x ∈ F) →
      (F.sum fun x => l.count x) = l.length := by
  intro l
  induction l with
  | nil => intro _; simp
  | cons a as ih =>
    intro hmem
    have hsplit : (F.sum fun x => (a :: as).count x) =
        F.sum (fun x => as.count x + if a = x then 1 else 0) := by
      refine Finset.sum_congr rfl ?_
      intro x _
      rw [List.count_cons]
      congr 1
      by_cases hax : a = x
      · simp [hax]
      · simp [hax]
    rw [hsplit, Finset.sum_add_distrib,
      ih (fun x hx => hmem x (List.mem_cons_of_mem _ hx)),
      Finset.sum_ite_eq F a (fun _ => 1),
      if_pos (hmem a (List.mem_cons_self _ _))]
    simp

theorem card_pairs_ne (n : ℕ) :
    (((Finset.range n) ×ˢ (Finset.range n)).filter
      (fun p => ¬ p.1 = p.2)).card = n * n - n := by
  have hdiag : (((Finset.range n) ×ˢ (Finset.range n)).filter
      (fun p => p.1 = p.2)).card = n := by
    rw [Finset.card_filter, Finset.sum_product]
    have hrow : ∀ x ∈ Finset.range n, ((Finset.range n).sum
        (fun y => if ((x, y) : ℕ × ℕ).1 = (x, y).2 then 1 else 0)) =
        1 := by
      intro x hx
      have h1 : ((Finset.range n).sum
          (fun y => if x = y then 1 else 0)) = 1 := by
        rw [Finset.sum_ite_eq, if_pos hx]
      exact h1
    rw [Finset.sum_congr rfl hrow]
    simp
  have htot := Finset.filter_card_add_filter_neg_card_eq_card
    (s := (Finset.range n) ×ˢ (Finset.range n)) (fun p => p.1 = p.2)
  rw [Finset.card_product, Finset.card_range, hdiag] at htot
  omega

theorem swap_filter_image (n : ℕ) :
    ((((Finset.range n) ×ˢ (Finset.range n)).filter
        (fun p => ¬ p.1 = p.2)).filter (fun p => ¬ p.1 < p.2)) =
      (((((Finset.range n) ×ˢ (Finset.range n)).filter
        (fun p => ¬ p.1 = p.2)).filter (fun p => p.1 < p.2)).image
          Prod.swap) := by
  ext p
  simp only [Finset.mem_image, Finset.mem_filter, Finset.mem_product,
    Finset.mem_range]
  constructor
  · rintro ⟨⟨⟨h1, h2⟩, h3⟩, h4⟩
    refine ⟨(p.2, p.1), ⟨⟨⟨h2, h1⟩, by simp; omega⟩, by simp; omega⟩, ?_⟩
    simp [Prod.ext_iff]
  · rintro ⟨b, ⟨⟨⟨h1, h2⟩, h3⟩, h4⟩, h5⟩
    subst h5
    simp only [Prod.fst_swap, Prod.snd_swap]
    refine ⟨⟨⟨h2, h1⟩, by omega⟩, by omega⟩

theorem staggered_length (n : ℕ) (h : 2 ≤ n) :
    (staggeredIdxPairs n).length = n * (n - 1) / 2 := by
  have hmem : ∀ x ∈ staggeredIdxPairs n,
      x ∈ ((Finset.range n) ×ˢ (Finset.range n)).filter
        (fun p => ¬ p.1 = p.2) := by
    intro x hx
    obtain ⟨h1, h2, h3⟩ := staggered_pairs_mem n h x hx
    rw [Finset.mem_filter, Finset.mem_product]
    exact ⟨⟨Finset.mem_range.mpr h1, Finset.mem_range.mpr h2⟩, h3⟩
  have hlen := length_eq_sum_count _ (staggeredIdxPairs n) hmem
  rw [← hlen]
  rw [← Finset.sum_filter_add_sum_filter_not
    (((Finset.range n) ×ˢ (Finset.range n)).filter (fun p => ¬ p.1 = p.2))
    (fun p => p.1 < p.2) (fun x => (staggeredIdxPairs n).count x)]
  rw [swap_filter_image n,
    Finset.sum_image (fun x hx y hy hxy => Prod.swap_injective hxy),
    ← Finset.sum_add_distrib]
  have hone : ∀ p ∈ (((Finset.range n) ×ˢ (Finset.range n)).filter
      (fun p => ¬ p.1 = p.2)).filter (fun p => p.1 < p.2),
      (staggeredIdxPairs n).count p +
        (staggeredIdxPairs n).count p.swap = 1 := by
    intro p hp
    obtain ⟨a, b⟩ := p
    rw [Finset.mem_filter, Finset.mem_filter, Finset.mem_product] at hp
    obtain ⟨⟨⟨hp1, hp2⟩, hne⟩, hlt⟩ := hp
    have hc := staggered_count n a b h hlt (Finset.mem_range.mp hp2)
    simpa using hc
  rw [Finset.sum_congr rfl hone, Finset.sum_const, smul_eq_mul, mul_one]
  have hsplit := Finset.filter_card_add_filter_neg_card_eq_card
    (s := ((Finset.range n) ×ˢ (Finset.range n)).filter
      (fun p => ¬ p.1 = p.2))
    (fun p => p.1 < p.2)
  rw [card_pairs_ne n, swap_filter_image n,
    Finset.card_image_of_injective _ Prod.swap_injective] at hsplit
  have hnn : n * n - n = n * (n - 1) := by
    cases n with
    | zero => simp
    | succ k =>
      simp only [Nat.succ_sub_one]
      ring_nf
      omega
  omega

/-- (C10) `Bracket.staggered_matchups` is a complete round-robin: for a
member list with `n < 2` wrestlers it returns `[]`; for `n ≥ 2` it
returns exactly `n * (n - 1) / 2` pairs, and every unordered pair of
distinct member positions `i < j < n` is emitted exactly once (in
exactly one of its two orientations). -/
theorem staggered_complete (ws : List Wrestler) :
    (ws.length < 2 → staggeredMatchups ws = []) ∧
    (2 ≤ ws.length →
      (staggeredMatchups ws).length =
        ws.length * (ws.length - 1) / 2 ∧
      ∀ i j : ℕ, i < j → j < ws.length →
        (staggeredIdxPairs ws.length).count (i, j) +
          (staggeredIdxPairs ws.length).count (j, i) = 1) := by
  constructor
  · intro hlt
    unfold staggeredMatchups
    rw [show staggeredIdxPairs ws.length = [] from by
      unfold staggeredIdxPairs; rw [if_pos hlt]]
    rfl
  · intro h2
    refine ⟨?_, fun i j hij hjn =>
      staggered_count ws.length i j h2 hij hjn⟩
    unfold staggeredMatchups
    rw [List.length_map]
    exact staggered_length ws.length h2

/-- Witness for `staggered_complete` on the five-wrestler roster: ten
matchups, and positions 0 and 1 meet exactly once. -/
theorem staggered_complete_witness :
    (staggeredMatchups wr5).length = wr5.length * (wr5.length - 1) / 2 ∧
    (staggeredIdxPairs wr5.length).count (0, 1) +
      (staggeredIdxPairs wr5.length).count (1, 0) = 1 :=
  ⟨((staggered_complete wr5).2 (by decide)).1,
   ((staggered_complete wr5).2 (by decide)).2 0 1 (by decide) (by decide)⟩

end Wrestling
